import Mathlib

/-!
Verification of the role sanitization engine of cdp-scrapers
(src/cdp_scrapers/utils/sanitize_roles.py), shallowly embedded in Lean.

Modelling conventions:
- datetimes are modelled as Int, with one unit = one day, so that the
  Python expression (timedelta with days equal to 1) becomes the integer 1;
  datetime.today() becomes an explicit parameter now : Int;
- Python strings are Lean String values; string functions are re-implemented
  over List Char so that they evaluate inside the kernel;
- regular expression search of the pattern join of a pattern list with the
  bar character under re.I is modelled for literal (metacharacter-free)
  patterns: it succeeds iff the pattern list is empty (an empty alternation
  is the empty regex, which matches at position 0 of every string) or some
  pattern is a case-insensitive substring of the text;
- Python object mutation is modelled with explicit state: the list of kept
  roles is the store, positions in that list play the part of object
  identities, and the in-place updates of the conflict-resolution sweep
  become functional updates of the store;
- getD defaults only totalize branches in which the Python code would raise
  a TypeError or an AttributeError (each such spot is noted in place).
-/

/-- Whitespace test used by the model of str_simplified. -/
def isSpaceChar (c : Char) : Bool :=
  (c == ' ') || (c == '\t') || (c == '\n') || (c == '\r')

/-- One step of splitting a character list into whitespace-separated pieces. -/
def wordsAux (c : Char) (acc : List (List Char)) : List (List Char) :=
  if isSpaceChar c then [] :: acc
  else
    match acc with
    | [] => [[c]]
    | w :: ws => (c :: w) :: ws

/-- Join words with single spaces. -/
def joinWithSpace : List (List Char) → List Char
  | [] => []
  | [w] => w
  | w :: ws => w ++ ' ' :: joinWithSpace ws

/-- Model of str_simplified (src/cdp_scrapers/utils/str_simplified.py):
leading and trailing whitespace is removed and internal whitespace runs are
collapsed to a single space; casing is preserved. -/
def str_simplified (s : String) : String :=
  String.mk (joinWithSpace ((s.toList.foldr wordsAux [[]]).filter (fun w => !w.isEmpty)))

/-- Model of the Python str.lower method (ASCII case folding suffices for the
strings manipulated by sanitize_roles). -/
def strLower (s : String) : String :=
  String.mk (s.toList.map Char.toLower)

/-- Case-sensitive substring test: does hay contain needle. -/
def containsSub (needle hay : String) : Bool :=
  (hay.toList.tails).any (fun t => needle.toList.isPrefixOf t)

/-- Model of re.search of the bar-join of pats with re.I, for literal
patterns.  When pats is empty the joined pattern is the empty regex, which
matches every string (including the empty one); otherwise the alternation
matches iff some pattern occurs in the text, case-insensitively. -/
def reSearchAny (pats : List String) (s : String) : Bool :=
  pats.isEmpty || pats.any (fun p => containsSub (strLower p) (strLower s))

namespace RoleTitle

/-- String constant of the closed title enumeration (cdp_backend RoleTitle).
The enumeration is external to the repository; the constants are modelled
from the spec, which fixes the closed taxonomy Councilmember,
CouncilPresident, Chair, ViceChair, Alternate, Supervisor, Member. -/
def COUNCILMEMBER : String := "Councilmember"

/-- Council president title constant. -/
def COUNCILPRESIDENT : String := "Council President"

/-- Chair title constant. -/
def CHAIR : String := "Chair"

/-- Vice chair title constant. -/
def VICE_CHAIR : String := "Vice Chair"

/-- Alternate title constant. -/
def ALTERNATE : String := "Alternate"

/-- Supervisor title constant. -/
def SUPERVISOR : String := "Supervisor"

/-- Member title constant. -/
def MEMBER : String := "Member"

end RoleTitle

/-- Model of cdp_backend ingestion Body: only the fields sanitize_roles can
observe (name) plus a second field so that two bodies with the same name can
still be distinguished by value equality, as Python dataclass equality does. -/
structure Body where
  name : Option String
  description : Option String
deriving DecidableEq, Inhabited

/-- Model of cdp_backend ingestion Role as consumed by sanitize_roles. -/
structure Role where
  title : Option String
  body : Option Body
  start_datetime : Option Int
  end_datetime : Option Int
  external_source_id : Option String
deriving DecidableEq, Inhabited

/-- Model of cdp_backend Seat: the part sanitize_roles reads. -/
structure Seat where
  roles : Option (List Role)
deriving DecidableEq, Inhabited

/-- Model of a Person entry of the static data: the part sanitize_roles
reads. -/
structure StaticPerson where
  seat : Option Seat
deriving DecidableEq, Inhabited

/-- Model of ScraperStaticData (cdp_scrapers.types): dictionaries become
association lists (first binding wins on lookup, as dict keys are unique). -/
structure ScraperStaticData where
  primary_bodies : List (String × Body)
  persons : List (String × StaticPerson)
deriving DecidableEq, Inhabited

/-- The chain static_data.persons[person_name].seat.roles guarded by the
try/except of sanitize_roles lines 68-71: any missing link (no static data,
unknown person, absent seat, absent roles) yields none. -/
def staticSeatRoles (static_data : Option ScraperStaticData) (person_name : String) :
    Option (List Role) := do
  let sd ← static_data
  let p ← sd.persons.lookup person_name
  let seat ← p.seat
  seat.roles

/-- have_primary_roles of sanitize_roles lines 68-71: true iff the person has
a non-empty declared static role list (KeyError, AttributeError and
TypeError all collapse to false). -/
def havePrimaryRoles (static_data : Option ScraperStaticData) (person_name : String) : Bool :=
  match staticSeatRoles static_data person_name with
  | some rs => rs.length > 0
  | none => false

/-- The declared static roles of the person, empty when absent.  The code
reads static_data.persons[person_name].seat.roles only when
have_primary_roles is true, in which case the list is the declared one. -/
def staticRolesOf (static_data : Option ScraperStaticData) (person_name : String) : List Role :=
  (staticSeatRoles static_data person_name).getD []

/-- primary_body_names of sanitize_roles lines 59-66: defaults when the
static data is absent or has no primary bodies, otherwise the lower-cased
dictionary keys. -/
def primary_body_names (static_data : Option ScraperStaticData) : List String :=
  match static_data with
  | none => ["city council", "council briefing"]
  | some sd =>
    if sd.primary_bodies.isEmpty then ["city council", "council briefing"]
    else sd.primary_bodies.map (fun kv => strLower kv.1)

/-- Ordering of optional datetimes as used against static role bounds.  In
Python a missing bound raises a TypeError inside the comparison; the static
data loader never validates datetimes, so the model totalizes the raising
case to false (the static role then witnesses no containment). -/
def optLE (a b : Option Int) : Bool :=
  match a, b with
  | some x, some y => x ≤ y
  | _, _ => false

/-- Model of the nested helper _is_role_period_ok (lines 73-95): reject when
a bound is missing; with no declared static roles accept iff now lies in the
window; otherwise accept iff some static role interval contains the window. -/
def is_role_period_ok (hpr : Bool) (staticRoles : List Role) (now : Int) (role : Role) : Bool :=
  match role.start_datetime, role.end_datetime with
  | some s, some e =>
    if !hpr then decide (s ≤ now) && decide (now ≤ e)
    else staticRoles.any (fun sr =>
      optLE sr.start_datetime (some s) && optLE (some e) sr.end_datetime)
  | _, _ => false

/-- Model of the nested helper _is_primary_body (lines 97-105). -/
def is_primary_body (pnames : List String) (role : Role) : Bool :=
  match role.body with
  | none => false
  | some b =>
    match b.name with
    | none => false
    | some n => pnames.contains (strLower (str_simplified n))

/-- Model of the nested helper _fix_primary_title (lines 107-119). -/
def fix_primary_title (council_pres_patterns : List String) (role : Role) : String :=
  match role.title with
  | none => RoleTitle.COUNCILMEMBER
  | some t =>
    if reSearchAny council_pres_patterns (str_simplified t) then RoleTitle.COUNCILPRESIDENT
    else RoleTitle.COUNCILMEMBER

/-- Model of the nested helper _fix_nonprimary_title (lines 121-139). -/
def fix_nonprimary_title (chair_patterns : List String) (role : Role) : String :=
  match role.title with
  | none => RoleTitle.MEMBER
  | some t =>
    let role_title := strLower (str_simplified t)
    if containsSub ("vice") role_title then RoleTitle.VICE_CHAIR
    else if containsSub ("alt") role_title then RoleTitle.ALTERNATE
    else if containsSub ("super") role_title then RoleTitle.SUPERVISOR
    else if reSearchAny chair_patterns role_title then RoleTitle.CHAIR
    else RoleTitle.MEMBER

/-- Model of the nested helper _is_councilmember_term (lines 141-146). -/
def is_councilmember_term (role : Role) : Bool :=
  (role.title == some RoleTitle.COUNCILMEMBER)
    && role.start_datetime.isSome && role.end_datetime.isSome

/-- The title standardization loops (lines 157-161): every kept role gets its
title overwritten, by the primary rule or the non-primary rule according to
its body.  The loops mutate title only, so they are a map over the store. -/
def retitleRole (pnames council_pres_patterns chair_patterns : List String) (role : Role) :
    Role :=
  if is_primary_body pnames role then
    { role with title := some (fix_primary_title council_pres_patterns role) }
  else
    { role with title := some (fix_nonprimary_title chair_patterns role) }

/-- The six arguments of one sanitize_roles call (now stands for the current
moment read by datetime.today, in UTC, in days). -/
structure Ctx where
  person_name : String
  roles : Option (List Role)
  static_data : Option ScraperStaticData
  council_pres_patterns : List String
  chair_patterns : List String
  now : Int
deriving Inhabited

/-- Lines 56-57: a missing roles argument is replaced by the empty list. -/
def Ctx.inputRoles (c : Ctx) : List Role :=
  c.roles.getD []

/-- The primary body name list of this call. -/
def Ctx.pnames (c : Ctx) : List String :=
  primary_body_names c.static_data

/-- The declared static roles of this call. -/
def Ctx.staticRoles (c : Ctx) : List Role :=
  staticRolesOf c.static_data c.person_name

/-- have_primary_roles of this call. -/
def Ctx.hpr (c : Ctx) : Bool :=
  havePrimaryRoles c.static_data c.person_name

/-- The predicate of the combined filter stage (lines 148-156): keep a role
iff its period is acceptable and it is not a scraped primary-body role
shadowed by declared static roles. -/
def Ctx.keepRole (c : Ctx) (r : Role) : Bool :=
  is_role_period_ok c.hpr c.staticRoles c.now r && !(c.hpr && is_primary_body c.pnames r)

/-- The kept scraped roles, in input order (lines 148-156). -/
def Ctx.keptList (c : Ctx) : List Role :=
  c.inputRoles.filter c.keepRole

/-- Indices (into the input list) of the kept scraped roles. -/
def Ctx.keptIdx (c : Ctx) : List Nat :=
  (List.range c.inputRoles.length).filter (fun i => c.keepRole (c.inputRoles.getD i default))

/-- The store after the title standardization loops: position k holds the
current value of the k-th kept role object. -/
def Ctx.preSweep (c : Ctx) : List Role :=
  c.keptList.map (retitleRole c.pnames c.council_pres_patterns c.chair_patterns)

/-- Lexicographic comparison of character lists by code point, the order
Python uses on str. -/
def charsLT : List Char → List Char → Bool
  | [], [] => false
  | [], _ :: _ => true
  | _ :: _, [] => false
  | a :: as, b :: bs =>
    if a < b then true
    else if b < a then false
    else charsLT as bs

/-- Sort keys of the conflict-resolution sort (lines 183-187): the tuple
(role.body.name, role.start_datetime, role.end_datetime).  The getD defaults
totalize states where Python would raise a TypeError comparing None; every
councilmember term reaching the sort has a named body and both datetimes. -/
abbrev SortKey := List Char × Int × Int

/-- The sort key of a role. -/
def roleKey (r : Role) : SortKey :=
  (((r.body.bind Body.name).getD "").toList, r.start_datetime.getD 0, r.end_datetime.getD 0)

/-- Lexicographic order on sort keys, as Python orders tuples. -/
def keyLE (k1 k2 : SortKey) : Prop :=
  charsLT k1.1 k2.1 = true ∨
    (k1.1 = k2.1 ∧ (k1.2.1 < k2.2.1 ∨ (k1.2.1 = k2.2.1 ∧ k1.2.2 ≤ k2.2.2)))

instance (k1 k2 : SortKey) : Decidable (keyLE k1 k2) := by
  unfold keyLE
  exact inferInstance

/-- Key comparison lifted to store positions. -/
def posLE (st : List Role) (p q : Nat) : Bool :=
  decide (keyLE (roleKey (st.getD p default)) (roleKey (st.getD q default)))

/-- Stable insertion into a sorted list: the new element goes before the
first element it compares le to, hence after every equal earlier element. -/
def insertLE (le : α → α → Bool) (a : α) : List α → List α
  | [] => [a]
  | b :: l => if le a b then a :: b :: l else b :: insertLE le a l

/-- Stable insertion sort.  Python sorted is a stable sort, and any two
stable sorts of the same list under the same total preorder agree, so this
models the sorted call of lines 175-188 faithfully. -/
def insertionSortLE (le : α → α → Bool) : List α → List α
  | [] => []
  | a :: l => insertLE le a (insertionSortLE le l)

/-- Store positions of the dynamically scraped councilmember terms
(the filter of lines 176-181), in store order. -/
def Ctx.cmPositions (c : Ctx) : List Nat :=
  if c.hpr then []
  else (List.range c.preSweep.length).filter
    (fun p => is_councilmember_term (c.preSweep.getD p default))

/-- The sorted councilmember positions (lines 175-188). -/
def Ctx.sortedCM (c : Ctx) : List Nat :=
  insertionSortLE (posLE c.preSweep) c.cmPositions

/-- The grouping key of itertools.groupby (line 190): the raw body name. -/
def nameOfPos (st : List Role) (p : Nat) : Option String :=
  (st.getD p default).body.bind Body.name

/-- Model of itertools.groupby: maximal consecutive runs of equal keys. -/
def groupRuns (key : Nat → Option String) : List Nat → List (List Nat)
  | [] => []
  | a :: l =>
    match groupRuns key l with
    | [] => [[a]]
    | [] :: gs => [a] :: gs
    | (b :: g) :: gs =>
      if key a = key b then (a :: b :: g) :: gs else [a] :: (b :: g) :: gs

/-- scraped_member_roles_by_body (lines 172-192), with roles represented by
their store positions. -/
def Ctx.cmGroups (c : Ctx) : List (List Nat) :=
  groupRuns (nameOfPos c.preSweep) c.sortedCM

/-- The (previous, current) index pairs the inner loop of lines 203-205
visits for one group. -/
def groupPairs (g : List Nat) : List (Nat × Nat) :=
  g.zip g.tail

/-- All sweep iterations, in execution order. -/
def Ctx.allPairs (c : Ctx) : List (Nat × Nat) :=
  (c.cmGroups.map groupPairs).flatten

/-- The store right before the sweep: the kept retitled roles, extended with
the declared static roles when have_primary_roles (lines 194-196). -/
def Ctx.extendedRoles (c : Ctx) : List Role :=
  c.preSweep ++ (if c.hpr then c.staticRoles else [])

/-- Index of the first list element satisfying p, or the length when none
does: the model of the Python list.index method (which compares by value;
on a miss Python raises ValueError, and the store update below is then a
no-op, an unreachable situation since the searched value is in the store). -/
def indexOfFirst (p : α → Bool) : List α → Nat
  | [] => 0
  | a :: l => if p a then 0 else indexOfFirst p l + 1

/-- Truncate the end bound of the store entry at position j to cs minus one
day. -/
def truncAt (st : List Role) (j : Nat) (cs : Int) : List Role :=
  st.set j { (st.getD j default) with end_datetime := some (cs - 1) }

/-- One iteration of the conflict-resolution sweep (lines 203-210): read the
previous and current role of the pair; on overlap, locate the first store
entry equal to the previous role (the roles.index call, which compares by
value) and truncate its end to the current start minus one day.  A missing
datetime would raise in Python; such pairs cannot arise (councilmember terms
carry both datetimes), and the model leaves the store unchanged there. -/
def sweepStep (st : List Role) (pq : Nat × Nat) : List Role :=
  match (st.getD pq.1 default).end_datetime, (st.getD pq.2 default).start_datetime with
  | some pe, some cs =>
    if cs < pe then
      truncAt st (indexOfFirst (fun r => decide (r = st.getD pq.1 default)) st) cs
    else st
  | _, _ => st

/-- The returned list of sanitize_roles: the extended store after the sweep.
When the pair list is empty this is the early return of lines 197-200. -/
def Ctx.finalRoles (c : Ctx) : List Role :=
  c.allPairs.foldl sweepStep c.extendedRoles

/-- The number of entries of the returned list that derive from the scraped
input (the rest, if any, are the appended static roles). -/
def Ctx.scrapedCount (c : Ctx) : Nat :=
  c.preSweep.length

/-- The values of the caller-owned input Role objects after the call: kept
objects carry their final store value, dropped objects are untouched. -/
def Ctx.finalInputs (c : Ctx) : List Role :=
  (List.range c.inputRoles.length).map (fun i =>
    match c.keptIdx.findIdx? (fun j => j == i) with
    | some k => c.finalRoles.getD k default
    | none => c.inputRoles.getD i default)

/-- Model of sanitize_roles (lines 15-212), returning the returned list. -/
def sanitize_roles (person_name : String) (roles : Option (List Role))
    (static_data : Option ScraperStaticData)
    (council_pres_patterns chair_patterns : List String) (now : Int) : List Role :=
  (Ctx.mk person_name roles static_data council_pres_patterns chair_patterns now).finalRoles

/-- The default council_pres_patterns argument. -/
def councilPresDefaults : List String := ["chair", "pres", "super"]

/-- The default chair_patterns argument. -/
def chairDefaults : List String := ["chair", "pres"]

/-- The period policy as the spec states it, written independently of the
code: reject on a missing bound; with no declared static roles accept iff
the current moment falls within the window; with declared static roles
accept iff some static interval contains the role interval. -/
def periodPolicySpec (staticRoles : List Role) (now : Int) (role : Role) : Bool :=
  match role.start_datetime, role.end_datetime with
  | some s, some e =>
    if staticRoles.isEmpty then decide (s ≤ now) && decide (now ≤ e)
    else staticRoles.any (fun sr =>
      optLE sr.start_datetime (some s) && optLE (some e) sr.end_datetime)
  | _, _ => false

/-- The non-primary title rule as the spec states it, on the simplified
lower-cased title text, in priority order: vice, alt, super, chair patterns,
else Member; a null title gives Member. -/
def nonprimaryTitleSpec (chair_patterns : List String) (title : Option String) : String :=
  match title with
  | none => RoleTitle.MEMBER
  | some t =>
    let s := strLower (str_simplified t)
    if containsSub ("vice") s then RoleTitle.VICE_CHAIR
    else if containsSub ("alt") s then RoleTitle.ALTERNATE
    else if containsSub ("super") s then RoleTitle.SUPERVISOR
    else if reSearchAny chair_patterns s then RoleTitle.CHAIR
    else RoleTitle.MEMBER

/-- Start bound of the store entry at position p, as an Int (positions fed
to this function always hold a present start). -/
def startI (base : List Role) (p : Nat) : Int :=
  ((base.getD p default).start_datetime).getD 0

/-- End bound of the store entry at position p, as an Int. -/
def endI (base : List Role) (p : Nat) : Int :=
  ((base.getD p default).end_datetime).getD 0

/-- Raw grouping name of the store entry at position p. -/
def bodyNameI (base : List Role) (p : Nat) : Option String :=
  (base.getD p default).body.bind Body.name

/-- The value the sweep leaves at the previous position of a pair: truncated
to the current start minus one day on overlap, untouched otherwise. -/
def truncSpec (base : List Role) (a b : Nat) : Role :=
  if startI base b < endI base a then
    { (base.getD a default) with end_datetime := some (startI base b - 1) }
  else base.getD a default

/-- Invariant of the sweep fold: relative to the initial store base, after
the pair list D has been processed, positions that are no previous component
of D are untouched, and each processed pair has left exactly its specified
truncation at its previous position. -/
def SweepInv (base : List Role) (D : List (Nat × Nat)) (st : List Role) : Prop :=
  st.length = base.length ∧
    (∀ p : Nat, (∀ pq ∈ D, pq.1 ≠ p) → st.getD p default = base.getD p default) ∧
    (∀ pq ∈ D, st.getD pq.1 default = truncSpec base pq.1 pq.2)

/-- Helper for building concrete roles in examples. -/
def mkRole (t : Option String) (b : Option Body) (s e : Option Int) : Role :=
  { title := t, body := b, start_datetime := s, end_datetime := e,
    external_source_id := none }

/-- A city council body used by concrete examples. -/
def bodyCC : Body := { name := some ("City Council"), description := none }

/-- The same body with its name spelled in capitals. -/
def bodyCCUpper : Body := { name := some ("CITY COUNCIL"), description := none }

/-- A non-primary committee body used by concrete examples. -/
def bodyTransport : Body := { name := some ("Transportation Committee"), description := none }

/-- Concrete call of the C1 counterexample: two overlapping councilmember
windows on the same governing body, whose raw name strings differ in case. -/
def c1Ctx : Ctx :=
  { person_name := ("p"),
    roles := some [mkRole none (some bodyCC) (some 0) (some 10),
                   mkRole none (some bodyCCUpper) (some 5) (some 20)],
    static_data := none, council_pres_patterns := councilPresDefaults,
    chair_patterns := chairDefaults, now := 6 }

/-- Concrete call of the C1 amended witness and the C5 counterexample: two
overlapping councilmember windows on one body with identical raw names. -/
def c5Ctx : Ctx :=
  { person_name := ("p"),
    roles := some [mkRole none (some bodyCC) (some 0) (some 10),
                   mkRole none (some bodyCC) (some 5) (some 10)],
    static_data := none, council_pres_patterns := councilPresDefaults,
    chair_patterns := chairDefaults, now := 6 }

/-- Static data of the C4 counterexample: the person has one declared static
role whose datetimes are absent. -/
def c4Static : ScraperStaticData :=
  { primary_bodies := [(("City Council"), bodyCC)],
    persons := [(("p"),
      { seat := some { roles := some [mkRole (some RoleTitle.COUNCILMEMBER)
          (some bodyCC) none none] } })] }

/-- Concrete call of the C4 counterexample. -/
def c4Ctx : Ctx :=
  { person_name := ("p"), roles := some [], static_data := some c4Static,
    council_pres_patterns := councilPresDefaults, chair_patterns := chairDefaults,
    now := 0 }

/-- Static data with one declared, fully dated static role, used by the C3
witness and the C6 amended witness. -/
def c3Static : ScraperStaticData :=
  { primary_bodies := [(("City Council"), bodyCC)],
    persons := [(("p"),
      { seat := some { roles := some [mkRole (some RoleTitle.COUNCILMEMBER)
          (some bodyCC) (some 100) (some 200)] } })] }

/-- Concrete call of the C3 witness: one contained scraped primary role that
static data shadows, and one dropped role. -/
def c3Ctx : Ctx :=
  { person_name := ("p"),
    roles := some [mkRole (some ("Councilmember")) (some bodyCC) (some 120) (some 130),
                   mkRole none (some bodyCC) none (some 1)],
    static_data := some c3Static, council_pres_patterns := councilPresDefaults,
    chair_patterns := chairDefaults, now := 0 }

/-- Concrete call of the C6 counterexample: one surviving role whose title
the call rewrites in place. -/
def c6Ctx : Ctx :=
  { person_name := ("p"),
    roles := some [mkRole (some ("foo")) (some bodyCC) (some 0) (some 10)],
    static_data := none, council_pres_patterns := councilPresDefaults,
    chair_patterns := chairDefaults, now := 5 }

/-- Concrete call of the C8 counterexample: empty council president pattern
list and a titled primary-body role. -/
def c8Ctx : Ctx :=
  { person_name := ("p"),
    roles := some [mkRole (some ("x")) (some bodyCC) (some 0) (some 10)],
    static_data := none, council_pres_patterns := [],
    chair_patterns := chairDefaults, now := 5 }

/-- Concrete call of the C9 witness: a chaired committee role. -/
def c9Ctx : Ctx :=
  { person_name := ("p"),
    roles := some [mkRole (some ("Chair")) (some bodyTransport) (some 0) (some 10)],
    static_data := none, council_pres_patterns := councilPresDefaults,
    chair_patterns := chairDefaults, now := 5 }

/-- Concrete call of the C7 witness: two overlapping councilmember windows
on one body, truncated by the sweep. -/
def c7Ctx : Ctx := c5Ctx

theorem hpr_eq_not_isEmpty (sd : Option ScraperStaticData) (pn : String) :
    havePrimaryRoles sd pn = !(staticRolesOf sd pn).isEmpty := by
  unfold havePrimaryRoles staticRolesOf
  cases h : staticSeatRoles sd pn with
  | none => rfl
  | some rs =>
    cases rs with
    | nil => rfl
    | cons a t => simp

/-- C2: the period validator rejects roles with a missing bound; with no
declared static roles it accepts exactly the currently active windows; with
declared static roles it accepts exactly the windows contained in some
declared interval. -/
theorem C2_period_validator (sd : Option ScraperStaticData) (pn : String) (now : Int)
    (role : Role) :
    is_role_period_ok (havePrimaryRoles sd pn) (staticRolesOf sd pn) now role =
      periodPolicySpec (staticRolesOf sd pn) now role := by
  unfold is_role_period_ok periodPolicySpec
  rw [hpr_eq_not_isEmpty]
  cases role.start_datetime <;> cases role.end_datetime <;> simp

/-- C10: a missing roles argument is treated exactly like an empty role
list; sanitize_roles always returns a list (both return statements of the
code return one, which the total return type of the model reflects). -/
theorem C10_none_roles (pn : String) (sd : Option ScraperStaticData)
    (cp ch : List String) (now : Int) :
    sanitize_roles pn none sd cp ch now = sanitize_roles pn (some []) sd cp ch now := rfl

/-- C8 is false as stated: with an empty council president pattern list the
joined regex is empty and matches every title, so a titled primary-body role
is classified Council President, not Councilmember. -/
theorem C8_counterexample :
    sanitize_roles ("p") (some [mkRole (some ("x")) (some bodyCC) (some 0) (some 10)])
        none [] chairDefaults 5
      = [mkRole (some RoleTitle.COUNCILPRESIDENT) (some bodyCC) (some 0) (some 10)] ∧
    RoleTitle.COUNCILPRESIDENT ≠ RoleTitle.COUNCILMEMBER := by
  constructor
  · decide
  · decide

/-- C8 (amended): empty pattern lists cause no failure, but the empty
alternation matches every title, so with empty council president patterns
every titled primary-body role is classified Council President (an untitled
one Councilmember), and with empty chair patterns every non-primary role
whose text lacks vice, alt and super is classified Chair (an untitled one
Member). -/
theorem C8_empty_patterns_amended (role : Role) :
    fix_primary_title [] role =
      (match role.title with
       | none => RoleTitle.COUNCILMEMBER
       | some _ => RoleTitle.COUNCILPRESIDENT) ∧
    fix_nonprimary_title [] role =
      (match role.title with
       | none => RoleTitle.MEMBER
       | some t =>
         if containsSub ("vice") (strLower (str_simplified t)) then RoleTitle.VICE_CHAIR
         else if containsSub ("alt") (strLower (str_simplified t)) then RoleTitle.ALTERNATE
         else if containsSub ("super") (strLower (str_simplified t)) then RoleTitle.SUPERVISOR
         else RoleTitle.CHAIR) := by
  unfold fix_primary_title fix_nonprimary_title
  cases role.title with
  | none => exact ⟨rfl, rfl⟩
  | some t => simp [reSearchAny]

/-- C4 is false as stated: a declared static role with absent datetimes is
appended verbatim, so the returned list contains a role with a missing
start bound. -/
theorem C4_counterexample :
    sanitize_roles ("p") (some []) (some c4Static) councilPresDefaults chairDefaults 0
      = [mkRole (some RoleTitle.COUNCILMEMBER) (some bodyCC) none none] ∧
    (mkRole (some RoleTitle.COUNCILMEMBER) (some bodyCC) none none).start_datetime = none := by
  constructor
  · decide
  · rfl

/-- C6 is false as stated: the call rewrites the title of a surviving
caller-owned Role object in place. -/
theorem C6_counterexample :
    (c6Ctx.inputRoles.getD 0 default).title = some ("foo") ∧
    (c6Ctx.finalInputs.getD 0 default).title = some RoleTitle.COUNCILMEMBER := by
  constructor
  · rfl
  · decide

theorem getD_map_role (l : List Role) (f : Role → Role) (k : Nat) (h : k < l.length) :
    (l.map f).getD k default = f (l.getD k default) := by
  simp [List.getD_eq_getElem?_getD, List.getElem?_map, List.getElem?_eq_getElem h]

theorem getD_append_left (l1 l2 : List Role) (k : Nat) (h : k < l1.length) :
    (l1 ++ l2).getD k default = l1.getD k default := by
  simp [List.getD_eq_getElem?_getD, List.getElem?_append, h]

theorem getD_mem (l : List Role) (k : Nat) (h : k < l.length) :
    l.getD k default ∈ l := by
  rw [List.getD_eq_getElem?_getD, List.getElem?_eq_getElem h]
  exact List.getElem_mem h

theorem retitle_title (pnames cp ch : List String) (r : Role) :
    (retitleRole pnames cp ch r).title =
      some (if is_primary_body pnames r then fix_primary_title cp r
            else fix_nonprimary_title ch r) := by
  unfold retitleRole
  split <;> simp_all

theorem retitle_body (pnames cp ch : List String) (r : Role) :
    (retitleRole pnames cp ch r).body = r.body := by
  unfold retitleRole
  split <;> rfl

theorem retitle_start (pnames cp ch : List String) (r : Role) :
    (retitleRole pnames cp ch r).start_datetime = r.start_datetime := by
  unfold retitleRole
  split <;> rfl

theorem retitle_end (pnames cp ch : List String) (r : Role) :
    (retitleRole pnames cp ch r).end_datetime = r.end_datetime := by
  unfold retitleRole
  split <;> rfl

theorem is_primary_retitle (pnames cp ch : List String) (r : Role) :
    is_primary_body pnames (retitleRole pnames cp ch r) = is_primary_body pnames r := by
  unfold is_primary_body
  rw [retitle_body]

theorem period_ok_isSome (hpr : Bool) (srs : List Role) (now : Int) (r : Role)
    (h : is_role_period_ok hpr srs now r = true) :
    r.start_datetime.isSome ∧ r.end_datetime.isSome := by
  unfold is_role_period_ok at h
  cases hs : r.start_datetime <;> cases he : r.end_datetime <;> simp_all

theorem keptList_keep (c : Ctx) (r : Role) (h : r ∈ c.keptList) : c.keepRole r = true :=
  (List.mem_filter.mp h).2

theorem keepRole_period (c : Ctx) (r : Role) (h : c.keepRole r = true) :
    is_role_period_ok c.hpr c.staticRoles c.now r = true := by
  unfold Ctx.keepRole at h
  exact (Bool.and_eq_true_iff.mp h).1

theorem keepRole_nonprimary (c : Ctx) (r : Role) (h : c.keepRole r = true)
    (hh : c.hpr = true) : is_primary_body c.pnames r = false := by
  unfold Ctx.keepRole at h
  have h2 := (Bool.and_eq_true_iff.mp h).2
  simp [hh] at h2
  exact h2

theorem preSweep_length (c : Ctx) : c.preSweep.length = c.keptList.length := by
  unfold Ctx.preSweep
  exact List.length_map _ _

theorem preSweep_getD (c : Ctx) (k : Nat) (h : k < c.keptList.length) :
    c.preSweep.getD k default =
      retitleRole c.pnames c.council_pres_patterns c.chair_patterns
        (c.keptList.getD k default) := by
  unfold Ctx.preSweep
  exact getD_map_role _ _ _ h

theorem cmGroups_of_hpr (c : Ctx) (h : c.hpr = true) : c.cmGroups = [] := by
  unfold Ctx.cmGroups Ctx.sortedCM Ctx.cmPositions
  rw [if_pos h]
  rfl

theorem finalRoles_of_hpr (c : Ctx) (h : c.hpr = true) :
    c.finalRoles = c.preSweep ++ c.staticRoles := by
  unfold Ctx.finalRoles Ctx.allPairs Ctx.extendedRoles
  rw [cmGroups_of_hpr c h, if_pos h]
  rfl

/-- C3: when the person has declared static roles, the returned list is the
kept retitled scraped roles followed by the declared static roles appended
verbatim, and no kept scraped role has a primary body. -/
theorem C3_static_authority (c : Ctx) (h : c.hpr = true) :
    c.finalRoles = c.preSweep ++ c.staticRoles ∧
      ∀ r ∈ c.preSweep, is_primary_body c.pnames r = false := by
  refine ⟨finalRoles_of_hpr c h, ?_⟩
  intro r hr
  unfold Ctx.preSweep at hr
  obtain ⟨r0, hr0, rfl⟩ := List.mem_map.mp hr
  rw [is_primary_retitle]
  exact keepRole_nonprimary c r0 (keptList_keep c r0 hr0) h

/-- Closed instance of the C3 theorem: a concrete call with declared static
roles, a contained scraped primary role and a dropped malformed role. -/
theorem C3_witness :
    c3Ctx.hpr = true ∧
      (c3Ctx.finalRoles = c3Ctx.preSweep ++ c3Ctx.staticRoles ∧
        ∀ r ∈ c3Ctx.preSweep, is_primary_body c3Ctx.pnames r = false) := by
  refine ⟨by decide, C3_static_authority c3Ctx (by decide)⟩

theorem indexOfFirst_found {α : Type} [Inhabited α] (p : α → Bool) (l : List α)
    (h : indexOfFirst p l < l.length) : p (l.getD (indexOfFirst p l) default) = true := by
  induction l with
  | nil => simp at h
  | cons a t ih =>
    unfold indexOfFirst at h ⊢
    by_cases hp : p a = true
    · simp [hp]
    · simp only [hp, if_neg, Bool.false_eq_true, if_false] at h ⊢
      have : indexOfFirst p t < t.length := by simpa using h
      simpa using ih this

theorem indexOfFirst_first {α : Type} [Inhabited α] (p : α → Bool) (l : List α) (j : Nat)
    (hj : j < indexOfFirst p l) : p (l.getD j default) = false := by
  induction l generalizing j with
  | nil => simp [indexOfFirst] at hj
  | cons a t ih =>
    unfold indexOfFirst at hj
    by_cases hp : p a = true
    · simp [hp] at hj
    · simp only [hp, Bool.false_eq_true, if_false] at hj
      cases j with
      | zero => simpa using hp
      | succ j2 => simpa using ih j2 (by omega)

theorem indexOfFirst_le {α : Type} [Inhabited α] (p : α → Bool) (l : List α) (i : Nat)
    (_hi : i < l.length) (hp : p (l.getD i default) = true) : indexOfFirst p l ≤ i := by
  by_contra hlt
  have := indexOfFirst_first p l i (by omega)
  rw [hp] at this
  exact Bool.true_eq_false.mp this

theorem indexOfFirst_eq {α : Type} [Inhabited α] (p : α → Bool) (l : List α) (i : Nat)
    (hi : i < l.length) (hp : p (l.getD i default) = true)
    (hfirst : ∀ j, j < i → p (l.getD j default) = false) : indexOfFirst p l = i := by
  have h1 := indexOfFirst_le p l i hi hp
  rcases Nat.lt_or_ge (indexOfFirst p l) i with h2 | h2
  · have := hfirst _ h2
    have h3 := indexOfFirst_found p l (by omega)
    rw [this] at h3
    exact absurd h3 (by simp)
  · omega

theorem truncAt_length (st : List Role) (j : Nat) (cs : Int) :
    (truncAt st j cs).length = st.length := List.length_set _ _ _

theorem truncAt_getD_ne (st : List Role) (j k : Nat) (cs : Int) (h : j ≠ k) :
    (truncAt st j cs).getD k default = st.getD k default := by
  unfold truncAt
  simp [List.getD_eq_getElem?_getD, List.getElem?_set_ne h]

theorem truncAt_getD_self (st : List Role) (j : Nat) (cs : Int) (h : j < st.length) :
    (truncAt st j cs).getD j default
      = { (st.getD j default) with end_datetime := some (cs - 1) } := by
  unfold truncAt
  simp [List.getD_eq_getElem?_getD, List.getElem?_set_self, h]

theorem sweepStep_length (st : List Role) (pq : Nat × Nat) :
    (sweepStep st pq).length = st.length := by
  unfold sweepStep
  split
  · split
    · exact truncAt_length _ _ _
    · rfl
  · rfl

/-- The sweep changes only end bounds, and only turns a present end bound
into another present end bound. -/
theorem sweepStep_fields (st : List Role) (pq : Nat × Nat) (k : Nat) :
    ((sweepStep st pq).getD k default).title = (st.getD k default).title ∧
    ((sweepStep st pq).getD k default).body = (st.getD k default).body ∧
    ((sweepStep st pq).getD k default).start_datetime = (st.getD k default).start_datetime ∧
    ((sweepStep st pq).getD k default).end_datetime.isSome
      = (st.getD k default).end_datetime.isSome := by
  unfold sweepStep
  split
  case h_2 => exact ⟨rfl, rfl, rfl, rfl⟩
  case h_1 pe cs hpe hcs =>
    split
    case isFalse => exact ⟨rfl, rfl, rfl, rfl⟩
    case isTrue hlt =>
      by_cases hj : indexOfFirst (fun r => decide (r = st.getD pq.1 default)) st < st.length
      · have hfound : st.getD (indexOfFirst (fun r => decide (r = st.getD pq.1 default)) st)
            default = st.getD pq.1 default :=
          of_decide_eq_true (indexOfFirst_found _ st hj)
        by_cases hk : indexOfFirst (fun r => decide (r = st.getD pq.1 default)) st = k
        · rw [← hk, truncAt_getD_self _ _ _ hj]
          refine ⟨rfl, rfl, rfl, ?_⟩
          rw [hfound, hpe]
          rfl
        · rw [truncAt_getD_ne _ _ _ _ hk]
          exact ⟨rfl, rfl, rfl, rfl⟩
      · unfold truncAt
        rw [List.set_eq_of_length_le (by omega)]
        exact ⟨rfl, rfl, rfl, rfl⟩

/-- Fields preserved across the whole sweep fold. -/
theorem sweepFold_fields (P : List (Nat × Nat)) (st : List Role) (k : Nat) :
    ((P.foldl sweepStep st).getD k default).title = (st.getD k default).title ∧
    ((P.foldl sweepStep st).getD k default).body = (st.getD k default).body ∧
    ((P.foldl sweepStep st).getD k default).start_datetime
      = (st.getD k default).start_datetime ∧
    ((P.foldl sweepStep st).getD k default).end_datetime.isSome
      = (st.getD k default).end_datetime.isSome := by
  induction P generalizing st with
  | nil => exact ⟨rfl, rfl, rfl, rfl⟩
  | cons pq rest ih =>
    have h1 := sweepStep_fields st pq k
    have h2 := ih (sweepStep st pq)
    simp only [List.foldl_cons]
    exact ⟨h2.1.trans h1.1, h2.2.1.trans h1.2.1, h2.2.2.1.trans h1.2.2.1,
      h2.2.2.2.trans h1.2.2.2⟩

theorem sweepFold_length (P : List (Nat × Nat)) (st : List Role) :
    (P.foldl sweepStep st).length = st.length := by
  induction P generalizing st with
  | nil => rfl
  | cons pq rest ih =>
    simp only [List.foldl_cons]
    rw [ih (sweepStep st pq), sweepStep_length]

theorem extended_getD (c : Ctx) (k : Nat) (h : k < c.preSweep.length) :
    c.extendedRoles.getD k default = c.preSweep.getD k default := by
  unfold Ctx.extendedRoles
  exact getD_append_left _ _ _ h

/-- C4 (amended): every entry of the returned list that derives from the
scraped input has both its start and its end bound present; a scraped role
with a missing bound is dropped by the period filter regardless of its other
fields.  Entries originating from the appended static roles are not covered
(the C4 counterexample shows they can carry missing bounds). -/
theorem C4_scraped_timestamps_amended (c : Ctx) (k : Nat) (h : k < c.scrapedCount) :
    (c.finalRoles.getD k default).start_datetime.isSome = true ∧
    (c.finalRoles.getD k default).end_datetime.isSome = true := by
  have hk : k < c.keptList.length := by
    have := preSweep_length c
    unfold Ctx.scrapedCount at h
    omega
  have hfields := sweepFold_fields c.allPairs c.extendedRoles k
  have hext := extended_getD c k (by unfold Ctx.scrapedCount at h; exact h)
  have hpre := preSweep_getD c k hk
  have hmem := getD_mem c.keptList k hk
  have hkeep := keptList_keep c _ hmem
  have hper := keepRole_period c _ hkeep
  have hsome := period_ok_isSome _ _ _ _ hper
  unfold Ctx.finalRoles
  constructor
  · rw [hfields.2.2.1, hext, hpre, retitle_start]
    exact hsome.1
  · rw [hfields.2.2.2, hext, hpre, retitle_end]
    exact hsome.2

/-- Closed instance of the C4 amended theorem at a concrete call. -/
theorem C4_witness :
    0 < c6Ctx.scrapedCount ∧
      ((c6Ctx.finalRoles.getD 0 default).start_datetime.isSome = true ∧
        (c6Ctx.finalRoles.getD 0 default).end_datetime.isSome = true) :=
  ⟨by decide, C4_scraped_timestamps_amended c6Ctx 0 (by decide)⟩

theorem keptIdx_mem (c : Ctx) (i : Nat) :
    i ∈ c.keptIdx ↔
      (i < c.inputRoles.length ∧ c.keepRole (c.inputRoles.getD i default) = true) := by
  unfold Ctx.keptIdx
  simp [List.mem_filter, List.mem_range]

theorem finalInputs_length (c : Ctx) : c.finalInputs.length = c.inputRoles.length := by
  unfold Ctx.finalInputs
  simp

theorem finalInputs_getD (c : Ctx) (i : Nat) (h : i < c.inputRoles.length) :
    c.finalInputs.getD i default =
      (match c.keptIdx.findIdx? (fun j => j == i) with
       | some k => c.finalRoles.getD k default
       | none => c.inputRoles.getD i default) := by
  unfold Ctx.finalInputs
  rw [List.getD_eq_getElem?_getD, List.getElem?_map, List.getElem?_range h]
  rfl

/-- C6 (amended): the call does not change the number or order of the
objects held by the caller, and a role dropped by the filter stage keeps its
original value; but surviving Role objects are mutated in place (titles
rewritten, overlapping councilmember ends truncated), as the C6
counterexample shows, so only the dropped roles are guaranteed untouched. -/
theorem C6_untouched_amended (c : Ctx) (i : Nat)
    (h : c.keepRole (c.inputRoles.getD i default) = false) :
    c.finalInputs.getD i default = c.inputRoles.getD i default := by
  by_cases hi : i < c.inputRoles.length
  · rw [finalInputs_getD c i hi]
    have hnone : c.keptIdx.findIdx? (fun j => j == i) = none := by
      rw [List.findIdx?_eq_none_iff]
      intro j hj
      have hmem := (keptIdx_mem c j).mp hj
      by_cases hij : j = i
      · rw [hij] at hmem
        rw [hmem.2] at h
        exact absurd h (by simp)
      · simpa using hij
    rw [hnone]
  · have h1 : c.inputRoles.getD i default = default := by
      rw [List.getD_eq_getElem?_getD, List.getElem?_eq_none (by omega)]
      rfl
    have h2 : c.finalInputs.getD i default = default := by
      rw [List.getD_eq_getElem?_getD, List.getElem?_eq_none (by rw [finalInputs_length]; omega)]
      rfl
    rw [h1, h2]

/-- Closed instance of the C6 amended theorem: the dropped malformed role of
the C3 call is untouched. -/
theorem C6_witness :
    c3Ctx.keepRole (c3Ctx.inputRoles.getD 1 default) = false ∧
      c3Ctx.finalInputs.getD 1 default = c3Ctx.inputRoles.getD 1 default :=
  ⟨by decide, C6_untouched_amended c3Ctx 1 (by decide)⟩

theorem fix_nonprimary_eq_spec (ch : List String) (r : Role) :
    fix_nonprimary_title ch r = nonprimaryTitleSpec ch r.title := by
  unfold fix_nonprimary_title nonprimaryTitleSpec
  cases r.title <;> rfl

theorem nonprimaryTitleSpec_ne (ch : List String) (t : Option String) :
    nonprimaryTitleSpec ch t ≠ RoleTitle.COUNCILMEMBER ∧
      nonprimaryTitleSpec ch t ≠ RoleTitle.COUNCILPRESIDENT := by
  unfold nonprimaryTitleSpec
  cases t with
  | none => constructor <;> (dsimp only; decide)
  | some t0 =>
    dsimp only
    split_ifs <;> exact ⟨by decide, by decide⟩

/-- C9: a kept scraped role whose body is not primary leaves the call with
the title given by the spec priority cascade applied to its original title
(vice, then alt, then super, then the chair patterns, else Member; an
untitled role gets Member), and that title is never Councilmember or
Council President. -/
theorem C9_nonprimary_titles (c : Ctx) (k : Nat) (hk : k < c.scrapedCount)
    (hnp : is_primary_body c.pnames (c.keptList.getD k default) = false) :
    (c.finalRoles.getD k default).title
        = some (nonprimaryTitleSpec c.chair_patterns (c.keptList.getD k default).title) ∧
    (c.finalRoles.getD k default).title ≠ some RoleTitle.COUNCILMEMBER ∧
    (c.finalRoles.getD k default).title ≠ some RoleTitle.COUNCILPRESIDENT := by
  have hkk : k < c.keptList.length := by
    have := preSweep_length c
    unfold Ctx.scrapedCount at hk
    omega
  have hfields := sweepFold_fields c.allPairs c.extendedRoles k
  have hext := extended_getD c k (by unfold Ctx.scrapedCount at hk; exact hk)
  have hpre := preSweep_getD c k hkk
  have htitle : (c.finalRoles.getD k default).title
      = some (fix_nonprimary_title c.chair_patterns (c.keptList.getD k default)) := by
    unfold Ctx.finalRoles
    rw [hfields.1, hext, hpre, retitle_title, hnp]
    simp
  rw [htitle, fix_nonprimary_eq_spec]
  have hne := nonprimaryTitleSpec_ne c.chair_patterns (c.keptList.getD k default).title
  refine ⟨rfl, ?_, ?_⟩
  · intro hcontra
    exact hne.1 (Option.some_injective _ hcontra)
  · intro hcontra
    exact hne.2 (Option.some_injective _ hcontra)

/-- Closed instance of the C9 theorem at a concrete committee chair role. -/
theorem C9_witness :
    0 < c9Ctx.scrapedCount ∧
      is_primary_body c9Ctx.pnames (c9Ctx.keptList.getD 0 default) = false ∧
      ((c9Ctx.finalRoles.getD 0 default).title
          = some (nonprimaryTitleSpec c9Ctx.chair_patterns
              (c9Ctx.keptList.getD 0 default).title) ∧
        (c9Ctx.finalRoles.getD 0 default).title ≠ some RoleTitle.COUNCILMEMBER ∧
        (c9Ctx.finalRoles.getD 0 default).title ≠ some RoleTitle.COUNCILPRESIDENT) :=
  ⟨by decide, by decide, C9_nonprimary_titles c9Ctx 0 (by decide) (by decide)⟩

theorem toList_injective (s t : String) (h : s.toList = t.toList) : s = t := by
  cases s
  cases t
  exact congrArg String.mk (by simpa [String.toList] using h)

theorem charsLT_irrefl (a : List Char) : charsLT a a = false := by
  induction a with
  | nil => rfl
  | cons c t ih =>
    unfold charsLT
    simp [ih]

theorem charsLT_asymm (a b : List Char) (h : charsLT a b = true) : charsLT b a = false := by
  induction a generalizing b with
  | nil =>
    cases b with
    | nil => simpa [charsLT] using h
    | cons c t => rfl
  | cons c t ih =>
    cases b with
    | nil => simp [charsLT] at h
    | cons d u =>
      unfold charsLT at h ⊢
      rcases lt_trichotomy c d with hcd | hcd | hcd
      · simp [hcd, not_lt_of_gt hcd]
      · subst hcd
        simp only [lt_irrefl, if_false] at h ⊢
        exact ih u h
      · simp [hcd, not_lt_of_gt hcd] at h

theorem charsLT_trans (a b c : List Char) (h1 : charsLT a b = true)
    (h2 : charsLT b c = true) : charsLT a c = true := by
  induction a generalizing b c with
  | nil =>
    cases c with
    | nil =>
      cases b with
      | nil => simpa [charsLT] using h1
      | cons d u => simpa [charsLT] using h2
    | cons e v => rfl
  | cons x t ih =>
    cases b with
    | nil => simp [charsLT] at h1
    | cons d u =>
      cases c with
      | nil => simp [charsLT] at h2
      | cons e v =>
        unfold charsLT at h1 h2 ⊢
        rcases lt_trichotomy x d with hxd | hxd | hxd
        · rcases lt_trichotomy d e with hde | hde | hde
          · simp [lt_trans hxd hde]
          · subst hde
            simp [hxd]
          · simp [hde, not_lt_of_gt hde] at h2
        · subst hxd
          rcases lt_trichotomy x e with hxe | hxe | hxe
          · simp [hxe]
          · subst hxe
            simp only [lt_irrefl, if_false] at h1 h2 ⊢
            exact ih u v h1 h2
          · simp [hxe, not_lt_of_gt hxe] at h2
        · simp [hxd, not_lt_of_gt hxd] at h1

theorem charsLT_total_eq (a b : List Char) (h1 : charsLT a b = false)
    (h2 : charsLT b a = false) : a = b := by
  induction a generalizing b with
  | nil =>
    cases b with
    | nil => rfl
    | cons d u => simp [charsLT] at h1
  | cons x t ih =>
    cases b with
    | nil => simp [charsLT] at h2
    | cons d u =>
      unfold charsLT at h1 h2
      rcases lt_trichotomy x d with hxd | hxd | hxd
      · simp [hxd] at h1
      · subst hxd
        simp only [lt_irrefl, if_false] at h1 h2
        rw [ih u h1 h2]
      · simp [hxd] at h2

theorem keyLE_total (k1 k2 : SortKey) : keyLE k1 k2 ∨ keyLE k2 k1 := by
  unfold keyLE
  cases h1 : charsLT k1.1 k2.1
  · cases h2 : charsLT k2.1 k1.1
    · have he := charsLT_total_eq _ _ h1 h2
      rcases Int.lt_or_le k1.2.1 k2.2.1 with hs | hs
      · exact Or.inl (Or.inr ⟨he, Or.inl hs⟩)
      · rcases Int.lt_or_le k2.2.1 k1.2.1 with hs2 | hs2
        · exact Or.inr (Or.inr ⟨he.symm, Or.inl hs2⟩)
        · have hse : k1.2.1 = k2.2.1 := by omega
          rcases Int.le_total k1.2.2 k2.2.2 with hee | hee
          · exact Or.inl (Or.inr ⟨he, Or.inr ⟨hse, hee⟩⟩)
          · exact Or.inr (Or.inr ⟨he.symm, Or.inr ⟨hse.symm, hee⟩⟩)
    · exact Or.inr (Or.inl rfl)
  · exact Or.inl (Or.inl rfl)

theorem keyLE_trans (k1 k2 k3 : SortKey) (h1 : keyLE k1 k2) (h2 : keyLE k2 k3) :
    keyLE k1 k3 := by
  unfold keyLE at h1 h2 ⊢
  rcases h1 with h1 | ⟨he1, h1⟩
  · rcases h2 with h2 | ⟨he2, h2⟩
    · exact Or.inl (charsLT_trans _ _ _ h1 h2)
    · rw [← he2]
      exact Or.inl h1
  · rcases h2 with h2 | ⟨he2, h2⟩
    · rw [he1]
      exact Or.inl h2
    · refine Or.inr ⟨he1.trans he2, ?_⟩
      rcases h1 with h1 | ⟨hs1, h1⟩
      · rcases h2 with h2 | ⟨hs2, h2⟩
        · exact Or.inl (lt_trans h1 h2)
        · exact Or.inl (by omega)
      · rcases h2 with h2 | ⟨hs2, h2⟩
        · exact Or.inl (by omega)
        · exact Or.inr ⟨hs1.trans hs2, le_trans h1 h2⟩

theorem keyLE_antisymm (k1 k2 : SortKey) (h1 : keyLE k1 k2) (h2 : keyLE k2 k1) :
    k1 = k2 := by
  unfold keyLE at h1 h2
  rcases h1 with h1 | ⟨he1, h1⟩
  · rcases h2 with h2 | ⟨he2, h2⟩
    · rw [charsLT_asymm _ _ h1] at h2
      exact absurd h2 (by simp)
    · rw [he2] at h1
      rw [charsLT_irrefl] at h1
      exact absurd h1 (by simp)
  · rcases h2 with h2 | ⟨he2, h2⟩
    · rw [he1] at h2
      rw [charsLT_irrefl] at h2
      exact absurd h2 (by simp)
    · have hname : k1.1 = k2.1 := he1
      have hstart : k1.2.1 = k2.2.1 := by
        rcases h1 with h1 | ⟨hs1, h1⟩ <;> rcases h2 with h2 | ⟨hs2, h2⟩ <;> omega
      have hend : k1.2.2 = k2.2.2 := by
        rcases h1 with h1 | ⟨hs1, h1⟩ <;> rcases h2 with h2 | ⟨hs2, h2⟩ <;> omega
      obtain ⟨n1, s1, e1⟩ := k1
      obtain ⟨n2, s2, e2⟩ := k2
      simp only at hname hstart hend
      rw [hname, hstart, hend]

theorem keyLE_refl (k : SortKey) : keyLE k k := by
  unfold keyLE
  exact Or.inr ⟨rfl, Or.inr ⟨rfl, le_refl _⟩⟩

theorem keyLE_name (k1 k2 : SortKey) (h : keyLE k1 k2) :
    charsLT k1.1 k2.1 = true ∨ k1.1 = k2.1 := by
  unfold keyLE at h
  rcases h with h | ⟨he, h⟩
  · exact Or.inl h
  · exact Or.inr he

theorem keyLE_start (k1 k2 : SortKey) (h : keyLE k1 k2) (hn : k1.1 = k2.1) :
    k1.2.1 ≤ k2.2.1 := by
  unfold keyLE at h
  rcases h with h | ⟨he, h⟩
  · rw [hn, charsLT_irrefl] at h
    exact absurd h (by simp)
  · rcases h with h | ⟨hs, h⟩ <;> omega

theorem insertLE_perm {α : Type} (le : α → α → Bool) (a : α) (l : List α) :
    List.Perm (insertLE le a l) (a :: l) := by
  induction l with
  | nil => exact List.Perm.refl _
  | cons b t ih =>
    unfold insertLE
    by_cases h : le a b = true
    · rw [if_pos h]
    · rw [if_neg h]
      exact List.Perm.trans (List.Perm.cons b ih) (List.Perm.swap a b t)

theorem insertionSortLE_perm {α : Type} (le : α → α → Bool) (l : List α) :
    List.Perm (insertionSortLE le l) l := by
  induction l with
  | nil => exact List.Perm.refl _
  | cons a t ih =>
    unfold insertionSortLE
    exact List.Perm.trans (insertLE_perm le a _) (List.Perm.cons a ih)

theorem mem_insertLE {α : Type} (le : α → α → Bool) (a x : α) (l : List α)
    (h : x ∈ insertLE le a l) : x = a ∨ x ∈ l := by
  have h2 := (insertLE_perm le a l).mem_iff.mp h
  rcases List.mem_cons.mp h2 with h3 | h3
  · exact Or.inl h3
  · exact Or.inr h3

theorem insertLE_pairwise {α : Type} (le : α → α → Bool) (S : α → α → Prop)
    (htot : ∀ x y, le x y = true ∨ le y x = true)
    (htrans : ∀ x y z, le x y = true → le y z = true → le x z = true)
    (a : α) (l : List α)
    (hl : l.Pairwise (fun x y => le x y = true ∧ (le y x = true → S x y)))
    (ha : ∀ x ∈ l, S a x) :
    (insertLE le a l).Pairwise (fun x y => le x y = true ∧ (le y x = true → S x y)) := by
  induction l with
  | nil => simp [insertLE]
  | cons b t ih =>
    rw [List.pairwise_cons] at hl
    unfold insertLE
    by_cases h : le a b = true
    · rw [if_pos h]
      refine List.Pairwise.cons ?_ (List.Pairwise.cons hl.1 hl.2)
      intro y hy
      rcases List.mem_cons.mp hy with rfl | hy2
      · exact ⟨h, fun _ => ha _ (List.mem_cons_self _ _)⟩
      · refine ⟨htrans a b y h (hl.1 y hy2).1, fun _ => ha _ (List.mem_cons_of_mem _ hy2)⟩
    · rw [if_neg h]
      have hba : le b a = true := by
        rcases htot a b with h2 | h2
        · exact absurd h2 h
        · exact h2
      refine List.Pairwise.cons ?_ (ih hl.2 (fun x hx => ha _ (List.mem_cons_of_mem _ hx)))
      intro y hy
      rcases mem_insertLE le a y t hy with rfl | hy2
      · exact ⟨hba, fun h2 => absurd h2 h⟩
      · exact hl.1 y hy2

theorem insertionSortLE_pairwise {α : Type} (le : α → α → Bool) (S : α → α → Prop)
    (htot : ∀ x y, le x y = true ∨ le y x = true)
    (htrans : ∀ x y z, le x y = true → le y z = true → le x z = true)
    (l : List α) (hl : l.Pairwise S) :
    (insertionSortLE le l).Pairwise (fun x y => le x y = true ∧ (le y x = true → S x y)) := by
  induction l with
  | nil => simp [insertionSortLE]
  | cons a t ih =>
    rw [List.pairwise_cons] at hl
    unfold insertionSortLE
    refine insertLE_pairwise le S htot htrans a _ (ih hl.2) ?_
    intro x hx
    exact hl.1 x ((insertionSortLE_perm le t).mem_iff.mp hx)

theorem groupRuns_cons_eq (key : Nat → Option String) (a : Nat) (l : List Nat) :
    groupRuns key (a :: l) =
      (match groupRuns key l with
       | [] => [[a]]
       | [] :: gs => [a] :: gs
       | (b :: g) :: gs =>
         if key a = key b then (a :: b :: g) :: gs else [a] :: (b :: g) :: gs) := rfl

theorem groupRuns_cons_of_nil (key : Nat → Option String) (a : Nat) (l : List Nat)
    (h : groupRuns key l = []) : groupRuns key (a :: l) = [[a]] := by
  rw [groupRuns_cons_eq, h]

theorem groupRuns_cons_of_cons (key : Nat → Option String) (a : Nat) (l : List Nat)
    (b : Nat) (g : List Nat) (gs : List (List Nat))
    (h : groupRuns key l = (b :: g) :: gs) :
    groupRuns key (a :: l) =
      (if key a = key b then (a :: b :: g) :: gs else [a] :: (b :: g) :: gs) := by
  rw [groupRuns_cons_eq, h]

theorem groupRuns_ne_nil (key : Nat → Option String) (l : List Nat) :
    ∀ g ∈ groupRuns key l, g ≠ [] := by
  induction l with
  | nil => simp [groupRuns]
  | cons a t ih =>
    cases h : groupRuns key t with
    | nil =>
      rw [groupRuns_cons_of_nil key a t h]
      simp
    | cons g0 gs =>
      cases g0 with
      | nil =>
        exact absurd rfl (ih [] (h ▸ List.mem_cons_self _ _))
      | cons b g =>
        rw [groupRuns_cons_of_cons key a t b g gs h]
        by_cases hk : key a = key b
        · rw [if_pos hk]
          intro g2 hg2
          rcases List.mem_cons.mp hg2 with rfl | hg3
          · simp
          · exact ih g2 (h ▸ List.mem_cons_of_mem _ hg3)
        · rw [if_neg hk]
          intro g2 hg2
          rcases List.mem_cons.mp hg2 with rfl | hg3
          · simp
          · exact ih g2 (h ▸ hg3)

theorem groupRuns_flatten (key : Nat → Option String) (l : List Nat) :
    (groupRuns key l).flatten = l := by
  induction l with
  | nil => rfl
  | cons a t ih =>
    cases h : groupRuns key t with
    | nil =>
      rw [h] at ih
      simp only [List.flatten_nil] at ih
      rw [groupRuns_cons_of_nil key a t h]
      simp [← ih]
    | cons g0 gs =>
      cases g0 with
      | nil =>
        exact absurd rfl (groupRuns_ne_nil key t [] (h ▸ List.mem_cons_self _ _))
      | cons b g =>
        rw [h] at ih
        rw [groupRuns_cons_of_cons key a t b g gs h]
        by_cases hk : key a = key b
        · rw [if_pos hk]
          simp only [List.flatten_cons] at ih ⊢
          simp [← ih]
        · rw [if_neg hk]
          simp only [List.flatten_cons] at ih ⊢
          simp [← ih]

theorem groupRuns_head (key : Nat → Option String) (a : Nat) (l : List Nat) :
    ∃ g gs, groupRuns key (a :: l) = (a :: g) :: gs := by
  cases h : groupRuns key l with
  | nil => exact ⟨[], [], groupRuns_cons_of_nil key a l h⟩
  | cons g0 gs =>
    cases g0 with
    | nil =>
      exact absurd rfl (groupRuns_ne_nil key l [] (h ▸ List.mem_cons_self _ _))
    | cons b g =>
      by_cases hk : key a = key b
      · exact ⟨b :: g, gs, by rw [groupRuns_cons_of_cons key a l b g gs h, if_pos hk]⟩
      · exact ⟨[], (b :: g) :: gs, by rw [groupRuns_cons_of_cons key a l b g gs h, if_neg hk]⟩

theorem groupRuns_const (key : Nat → Option String) (l : List Nat) :
    ∀ g ∈ groupRuns key l, ∀ x ∈ g, ∀ y ∈ g, key x = key y := by
  induction l with
  | nil => simp [groupRuns]
  | cons a t ih =>
    cases h : groupRuns key t with
    | nil =>
      rw [groupRuns_cons_of_nil key a t h]
      intro g hg x hx y hy
      rcases List.mem_cons.mp hg with rfl | hg2
      · simp only [List.mem_singleton] at hx hy
        rw [hx, hy]
      · simp at hg2
    | cons g0 gs =>
      cases g0 with
      | nil =>
        exact absurd rfl (groupRuns_ne_nil key t [] (h ▸ List.mem_cons_self _ _))
      | cons b g =>
        have hbg : ∀ x ∈ b :: g, key x = key b := by
          intro x hx
          exact ih (b :: g) (h ▸ List.mem_cons_self _ _) x hx b (List.mem_cons_self _ _)
        rw [groupRuns_cons_of_cons key a t b g gs h]
        by_cases hk : key a = key b
        · rw [if_pos hk]
          intro g2 hg2 x hx y hy
          rcases List.mem_cons.mp hg2 with rfl | hg3
          · have hx2 : key x = key b := by
              rcases List.mem_cons.mp hx with rfl | hx3
              · exact hk
              · exact hbg x hx3
            have hy2 : key y = key b := by
              rcases List.mem_cons.mp hy with rfl | hy3
              · exact hk
              · exact hbg y hy3
            rw [hx2, hy2]
          · exact ih g2 (h ▸ List.mem_cons_of_mem _ hg3) x hx y hy
        · rw [if_neg hk]
          intro g2 hg2 x hx y hy
          rcases List.mem_cons.mp hg2 with rfl | hg3
          · simp only [List.mem_singleton] at hx hy
            rw [hx, hy]
          · exact ih g2 (h ▸ hg3) x hx y hy

theorem groupRuns_chain_ne (key : Nat → Option String) (l : List Nat) :
    List.Chain' (fun g h => ∀ x ∈ g, ∀ y ∈ h, key x ≠ key y) (groupRuns key l) := by
  induction l with
  | nil => simp [groupRuns]
  | cons a t ih =>
    cases h : groupRuns key t with
    | nil =>
      rw [groupRuns_cons_of_nil key a t h]
      simp
    | cons g0 gs =>
      cases g0 with
      | nil =>
        exact absurd rfl (groupRuns_ne_nil key t [] (h ▸ List.mem_cons_self _ _))
      | cons b g =>
        rw [h] at ih
        have hbg : ∀ x ∈ b :: g, key x = key b := by
          intro x hx
          exact groupRuns_const key t (b :: g) (h ▸ List.mem_cons_self _ _) x hx b
            (List.mem_cons_self _ _)
        rw [groupRuns_cons_of_cons key a t b g gs h]
        by_cases hk : key a = key b
        · rw [if_pos hk]
          cases gs with
          | nil => simp
          | cons g1 gs2 =>
            rw [List.chain'_cons] at ih ⊢
            refine ⟨?_, ih.2⟩
            intro x hx y hy
            rcases List.mem_cons.mp hx with rfl | hx2
            · rw [hk]
              exact ih.1 b (List.mem_cons_self _ _) y hy
            · exact ih.1 x hx2 y hy
        · rw [if_neg hk]
          rw [List.chain'_cons]
          refine ⟨?_, ih⟩
          intro x hx y hy
          simp only [List.mem_singleton] at hx
          rw [hx, hbg y hy]
          exact hk

theorem groupRuns_adjacent (key : Nat → Option String) (u : List Nat) (q r : Nat)
    (v : List Nat) (hqr : key q = key r) :
    ∃ g ∈ groupRuns key (u ++ q :: r :: v), ∃ g1 g2, g = g1 ++ q :: r :: g2 := by
  induction u with
  | nil =>
    obtain ⟨g0, gs0, hg⟩ := groupRuns_head key r v
    rw [List.nil_append, groupRuns_cons_of_cons key q (r :: v) r g0 gs0 hg, if_pos hqr]
    exact ⟨q :: r :: g0, List.mem_cons_self _ _, [], g0, rfl⟩
  | cons x u2 ih =>
    obtain ⟨gmid, hmid, g1, g2, hdec⟩ := ih
    have hcons : ∃ hd tl, u2 ++ q :: r :: v = hd :: tl := by
      cases u2 with
      | nil => exact ⟨q, r :: v, rfl⟩
      | cons z zs => exact ⟨z, zs ++ q :: r :: v, by simp⟩
    obtain ⟨hd, tl, hht⟩ := hcons
    rw [hht] at hmid
    obtain ⟨g0, gs0, hg⟩ := groupRuns_head key hd tl
    rw [hg] at hmid
    rw [List.cons_append, hht, groupRuns_cons_of_cons key x (hd :: tl) hd g0 gs0 hg]
    by_cases hk : key x = key hd
    · rw [if_pos hk]
      rcases List.mem_cons.mp hmid with heq | hmem
      · refine ⟨x :: hd :: g0, List.mem_cons_self _ _, x :: g1, g2, ?_⟩
        rw [← heq, hdec]
        rfl
      · exact ⟨gmid, List.mem_cons_of_mem _ hmem, g1, g2, hdec⟩
    · rw [if_neg hk]
      exact ⟨gmid, List.mem_cons_of_mem _ hmid, g1, g2, hdec⟩

theorem truncSpec_title (base : List Role) (a b : Nat) :
    (truncSpec base a b).title = (base.getD a default).title := by
  unfold truncSpec
  split <;> rfl

theorem truncSpec_body (base : List Role) (a b : Nat) :
    (truncSpec base a b).body = (base.getD a default).body := by
  unfold truncSpec
  split <;> rfl

theorem truncSpec_start (base : List Role) (a b : Nat) :
    (truncSpec base a b).start_datetime = (base.getD a default).start_datetime := by
  unfold truncSpec
  split <;> rfl

theorem sweepInv_start (base : List Role) (D : List (Nat × Nat)) (st : List Role)
    (hInv : SweepInv base D st) (p : Nat) :
    (st.getD p default).title = (base.getD p default).title ∧
    (st.getD p default).body = (base.getD p default).body ∧
    (st.getD p default).start_datetime = (base.getD p default).start_datetime := by
  obtain ⟨hlen, hun, hdone⟩ := hInv
  by_cases hq : ∃ pq ∈ D, pq.1 = p
  · obtain ⟨pq, hpq, rfl⟩ := hq
    rw [hdone pq hpq]
    exact ⟨truncSpec_title _ _ _, truncSpec_body _ _ _, truncSpec_start _ _ _⟩
  · push_neg at hq
    rw [hun p hq]
    exact ⟨rfl, rfl, rfl⟩

theorem sweep_inv_main (base : List Role) (P : List (Nat × Nat))
    (H1 : ∀ pq ∈ P, pq.1 < base.length ∧ pq.2 < base.length ∧
      (base.getD pq.1 default).end_datetime.isSome = true ∧
      (base.getD pq.2 default).start_datetime.isSome = true)
    (H2 : P.Pairwise (fun pq rs => pq.1 ≠ rs.1))
    (H3 : P.Pairwise (fun pq rs => bodyNameI base pq.1 = bodyNameI base rs.1 →
      startI base pq.2 ≤ startI base rs.2))
    (H4 : P.Pairwise (fun pq rs => base.getD rs.1 default = base.getD pq.1 default →
      pq.1 < rs.1))
    (H5 : ∀ pq ∈ P, ∀ q : Nat, q < pq.1 →
      base.getD q default = base.getD pq.1 default → ∃ cpos, (q, cpos) ∈ P) :
    ∀ D rest : List (Nat × Nat), ∀ st : List Role, P = D ++ rest →
      SweepInv base D st → SweepInv base P (rest.foldl sweepStep st) := by
  intro D rest
  induction rest generalizing D with
  | nil =>
    intro st hP hInv
    rw [List.append_nil] at hP
    rw [List.foldl_nil, hP]
    exact hInv
  | cons ab rest2 ih =>
    intro st hP hInv
    obtain ⟨a, b⟩ := ab
    have hmemab : (a, b) ∈ P := by
      rw [hP]
      exact List.mem_append_right _ (List.mem_cons_self _ _)
    obtain ⟨ha_lt, hb_lt, hae_some, hbs_some⟩ := H1 (a, b) hmemab
    obtain ⟨hlen, hun, hdone⟩ := hInv
    have hcrossH2 : ∀ pq ∈ D, pq.1 ≠ a := by
      intro pq hpq
      have := (List.pairwise_append.mp (hP ▸ H2)).2.2 pq hpq (a, b)
        (List.mem_cons_self _ _)
      exact this
    have ha_st : st.getD a default = base.getD a default := hun a hcrossH2
    have hH3cross : ∀ pq ∈ D, bodyNameI base pq.1 = bodyNameI base a →
        startI base pq.2 ≤ startI base b := by
      intro pq hpq hname
      have h3 : (D ++ (a, b) :: rest2).Pairwise (fun pq rs =>
          bodyNameI base pq.1 = bodyNameI base rs.1 →
          startI base pq.2 ≤ startI base rs.2) := hP ▸ H3
      exact (List.pairwise_append.mp h3).2.2 pq hpq (a, b) (List.mem_cons_self _ _) hname
    have hH4rest : ∀ rs ∈ rest2, base.getD rs.1 default = base.getD a default → a < rs.1 := by
      intro rs hrs heq
      have h4 : (D ++ (a, b) :: rest2).Pairwise (fun pq rs =>
          base.getD rs.1 default = base.getD pq.1 default → pq.1 < rs.1) := hP ▸ H4
      exact (List.pairwise_cons.mp (List.pairwise_append.mp h4).2.1).1 rs hrs heq
    obtain ⟨ae, hae⟩ := Option.isSome_iff_exists.mp hae_some
    obtain ⟨bs, hbs⟩ := Option.isSome_iff_exists.mp hbs_some
    have hb_start : (st.getD b default).start_datetime = some bs := by
      rw [(sweepInv_start base D st ⟨hlen, hun, hdone⟩ b).2.2]
      exact hbs
    have hstep : sweepStep st (a, b) =
        (if bs < ae then
          truncAt st (indexOfFirst (fun r => decide (r = st.getD a default)) st) bs
        else st) := by
      unfold sweepStep
      rw [show (st.getD (a, b).1 default).end_datetime = some ae by rw [ha_st]; exact hae]
      rw [show (st.getD (a, b).2 default).start_datetime = some bs from hb_start]
    have hstartIb : startI base b = bs := by
      unfold startI
      rw [hbs]
      rfl
    have hendIa : endI base a = ae := by
      unfold endI
      rw [hae]
      rfl
    have hInv2 : SweepInv base (D ++ [(a, b)]) (sweepStep st (a, b)) := by
      by_cases hfire : bs < ae
      · rw [hstep, if_pos hfire]
        have hja : indexOfFirst (fun r => decide (r = st.getD a default)) st = a := by
          apply indexOfFirst_eq _ _ a (by omega)
          · simp
          · intro q hq
            simp only [decide_eq_false_iff_not]
            rw [ha_st]
            by_cases hqD : ∃ pqD ∈ D, pqD.1 = q
            · obtain ⟨pqD, hpqD0, hq1⟩ := hqD
              have heta : (q, pqD.2) = pqD := by
                rw [← hq1]
              have hpqD : (q, pqD.2) ∈ D := heta ▸ hpqD0
              have hvalue : st.getD q default = truncSpec base q pqD.2 := hdone (q, pqD.2) hpqD
              rw [hvalue]
              unfold truncSpec
              split
              · intro hcontra
                have hbody : (base.getD q default).body = (base.getD a default).body := by
                  have := congrArg Role.body hcontra
                  simpa using this
                have hname : bodyNameI base q = bodyNameI base a := by
                  unfold bodyNameI
                  rw [hbody]
                have hR3 := hH3cross (q, pqD.2) hpqD hname
                dsimp only at hR3
                have hend : some (startI base pqD.2 - 1) = some ae := by
                  have h5 : some (startI base pqD.2 - 1)
                      = (base.getD a default).end_datetime := congrArg Role.end_datetime hcontra
                  rw [hae] at h5
                  exact h5
                have hplus : startI base pqD.2 = ae + 1 := by
                  have h2 := Option.some_injective _ hend
                  omega
                rw [hstartIb] at hR3
                omega
              · intro hcontra
                rename_i hnofire
                have hname : bodyNameI base q = bodyNameI base a := by
                  unfold bodyNameI
                  rw [hcontra]
                have hR3 := hH3cross (q, pqD.2) hpqD hname
                dsimp only at hR3
                have hendq : endI base q = ae := by
                  unfold endI
                  rw [hcontra, hae]
                  rfl
                rw [hstartIb] at hR3
                omega
            · push_neg at hqD
              rw [hun q (fun pq hpq => hqD pq hpq)]
              intro hcontra
              obtain ⟨cpos, hcpos⟩ := H5 (a, b) hmemab q hq hcontra
              rw [hP] at hcpos
              rcases List.mem_append.mp hcpos with hin | hin
              · exact hqD (q, cpos) hin rfl
              · rcases List.mem_cons.mp hin with heq | hin2
                · have : q = a := congrArg Prod.fst heq
                  omega
                · have hR4 := hH4rest (q, cpos) hin2 (by rw [hcontra])
                  omega
        rw [hja]
        refine ⟨by rw [truncAt_length]; exact hlen, ?_, ?_⟩
        · intro p hp
          have hpa : a ≠ p := hp (a, b) (List.mem_append_right _ (List.mem_singleton.mpr rfl))
          rw [truncAt_getD_ne st a p bs hpa]
          exact hun p (fun pq hpq => hp pq (List.mem_append_left _ hpq))
        · intro pq hpq
          rcases List.mem_append.mp hpq with hin | hin
          · have hne : a ≠ pq.1 := fun hcontra => hcrossH2 pq hin hcontra.symm
            rw [truncAt_getD_ne st a pq.1 bs hne]
            exact hdone pq hin
          · rw [List.mem_singleton.mp hin]
            simp only
            rw [truncAt_getD_self st a bs (by omega), ha_st]
            unfold truncSpec
            rw [if_pos (by rw [hstartIb, hendIa]; exact hfire), hstartIb]
      · rw [hstep, if_neg hfire]
        refine ⟨hlen, ?_, ?_⟩
        · intro p hp
          exact hun p (fun pq hpq => hp pq (List.mem_append_left _ hpq))
        · intro pq hpq
          rcases List.mem_append.mp hpq with hin | hin
          · exact hdone pq hin
          · rw [List.mem_singleton.mp hin]
            simp only
            rw [ha_st]
            unfold truncSpec
            rw [if_neg (by rw [hstartIb, hendIa]; exact hfire)]
    have hP2 : P = (D ++ [(a, b)]) ++ rest2 := by
      rw [hP]
      simp
    rw [List.foldl_cons]
    exact ih (D ++ [(a, b)]) (sweepStep st (a, b)) hP2 hInv2

theorem hpr_false_ext (c : Ctx) (h : c.hpr = false) : c.extendedRoles = c.preSweep := by
  unfold Ctx.extendedRoles
  rw [h]
  simp

theorem cmPositions_spec (c : Ctx) (p : Nat) :
    p ∈ c.cmPositions ↔
      (c.hpr = false ∧ p < c.preSweep.length ∧
        is_councilmember_term (c.preSweep.getD p default) = true) := by
  unfold Ctx.cmPositions
  by_cases h : c.hpr
  · rw [if_pos h]
    simp [h]
  · rw [if_neg h]
    simp only [Bool.not_eq_true] at h
    simp [List.mem_filter, List.mem_range, h]

theorem cmPositions_pairwise (c : Ctx) : c.cmPositions.Pairwise (· < ·) := by
  unfold Ctx.cmPositions
  split
  · exact List.Pairwise.nil
  · exact (List.pairwise_lt_range _).filter _

theorem cmPositions_nodup (c : Ctx) : c.cmPositions.Nodup :=
  (cmPositions_pairwise c).imp Nat.ne_of_lt

theorem sortedCM_perm (c : Ctx) : List.Perm c.sortedCM c.cmPositions :=
  insertionSortLE_perm _ _

theorem sortedCM_nodup (c : Ctx) : c.sortedCM.Nodup :=
  (sortedCM_perm c).nodup_iff.mpr (cmPositions_nodup c)

theorem mem_sortedCM (c : Ctx) (p : Nat) : p ∈ c.sortedCM ↔ p ∈ c.cmPositions :=
  (sortedCM_perm c).mem_iff

theorem posLE_total (st : List Role) (p q : Nat) :
    posLE st p q = true ∨ posLE st q p = true := by
  unfold posLE
  rcases keyLE_total (roleKey (st.getD p default)) (roleKey (st.getD q default)) with h | h
  · exact Or.inl (decide_eq_true h)
  · exact Or.inr (decide_eq_true h)

theorem posLE_trans (st : List Role) (p q r : Nat) (h1 : posLE st p q = true)
    (h2 : posLE st q r = true) : posLE st p r = true := by
  unfold posLE at h1 h2 ⊢
  exact decide_eq_true (keyLE_trans _ _ _ (of_decide_eq_true h1) (of_decide_eq_true h2))

theorem sortedCM_good (c : Ctx) :
    c.sortedCM.Pairwise (fun p q => posLE c.preSweep p q = true ∧
      (posLE c.preSweep q p = true → p < q)) := by
  unfold Ctx.sortedCM
  exact insertionSortLE_pairwise (posLE c.preSweep) (· < ·) (posLE_total c.preSweep)
    (posLE_trans c.preSweep) c.cmPositions (cmPositions_pairwise c)

theorem fix_nonprimary_ne (ch : List String) (r : Role) :
    fix_nonprimary_title ch r ≠ RoleTitle.COUNCILMEMBER ∧
      fix_nonprimary_title ch r ≠ RoleTitle.COUNCILPRESIDENT := by
  rw [fix_nonprimary_eq_spec]
  exact nonprimaryTitleSpec_ne ch r.title

theorem cm_title_primary (c : Ctx) (k : Nat) (hk : k < c.keptList.length)
    (ht : (c.preSweep.getD k default).title = some RoleTitle.COUNCILMEMBER) :
    is_primary_body c.pnames (c.keptList.getD k default) = true := by
  rw [preSweep_getD c k hk, retitle_title] at ht
  by_cases hp : is_primary_body c.pnames (c.keptList.getD k default) = true
  · exact hp
  · rw [if_neg (by simpa using hp)] at ht
    have := Option.some_injective _ ht
    exact absurd this (fix_nonprimary_ne _ _).1

theorem is_primary_name_some (pn : List String) (r : Role)
    (h : is_primary_body pn r = true) : ∃ b n, r.body = some b ∧ b.name = some n := by
  unfold is_primary_body at h
  cases hb : r.body with
  | none => rw [hb] at h; simp at h
  | some b =>
    rw [hb] at h
    dsimp only at h
    cases hn : b.name with
    | none => rw [hn] at h; simp at h
    | some n => exact ⟨b, n, rfl, hn⟩

theorem is_cm_parts (r : Role) (h : is_councilmember_term r = true) :
    r.title = some RoleTitle.COUNCILMEMBER ∧ r.start_datetime.isSome = true ∧
      r.end_datetime.isSome = true := by
  unfold is_councilmember_term at h
  simp only [Bool.and_eq_true, beq_iff_eq] at h
  exact ⟨h.1.1, h.1.2, h.2⟩

theorem cmPos_name_isSome (c : Ctx) (p : Nat) (hp : p ∈ c.cmPositions) :
    (nameOfPos c.preSweep p).isSome = true := by
  obtain ⟨hhpr, hlen, hcm⟩ := (cmPositions_spec c p).mp hp
  have hkl : p < c.keptList.length := by
    have := preSweep_length c
    omega
  have hprim := cm_title_primary c p hkl (is_cm_parts _ hcm).1
  obtain ⟨b, n, hb, hn⟩ := is_primary_name_some _ _ hprim
  unfold nameOfPos
  rw [preSweep_getD c p hkl, retitle_body, hb]
  simp [hn]

theorem roleKey_name_eq (st : List Role) (p : Nat) :
    (roleKey (st.getD p default)).1 = ((nameOfPos st p).getD "").toList := rfl

theorem roleKey_start_eq (st : List Role) (p : Nat) :
    (roleKey (st.getD p default)).2.1 = startI st p := rfl

theorem nameOption_eq_of_chars (st : List Role) (p q : Nat)
    (hp : (nameOfPos st p).isSome = true) (hq : (nameOfPos st q).isSome = true)
    (h : ((nameOfPos st p).getD "").toList = ((nameOfPos st q).getD "").toList) :
    nameOfPos st p = nameOfPos st q := by
  obtain ⟨n1, hn1⟩ := Option.isSome_iff_exists.mp hp
  obtain ⟨n2, hn2⟩ := Option.isSome_iff_exists.mp hq
  rw [hn1, hn2] at h ⊢
  simp only [Option.getD_some] at h
  rw [toList_injective n1 n2 h]

theorem chain'_combine {α : Type} (R1 R2 R3 : α → α → Prop) (Q : α → Prop) (l : List α)
    (h1 : List.Chain' R1 l) (h2 : List.Chain' R2 l) (hQ : ∀ a ∈ l, Q a)
    (hcomb : ∀ a b, Q a → Q b → R1 a b → R2 a b → R3 a b) : List.Chain' R3 l := by
  induction l with
  | nil => exact List.chain'_nil
  | cons a t ih =>
    cases t with
    | nil => simp
    | cons b t2 =>
      rw [List.chain'_cons] at h1 h2 ⊢
      refine ⟨hcomb a b (hQ a (List.mem_cons_self _ _))
        (hQ b (List.mem_cons_of_mem _ (List.mem_cons_self _ _))) h1.1 h2.1, ?_⟩
      exact ih h1.2 h2.2 (fun x hx => hQ x (List.mem_cons_of_mem _ hx))

theorem crossLT_chain_head (f : Nat → List Char) (g : List Nat) (rest : List (List Nat))
    (hne : ∀ h ∈ rest, h ≠ [])
    (hch : List.Chain' (fun g2 h => ∀ x ∈ g2, ∀ y ∈ h, charsLT (f x) (f y) = true)
      (g :: rest)) :
    ∀ h ∈ rest, ∀ x ∈ g, ∀ y ∈ h, charsLT (f x) (f y) = true := by
  induction rest generalizing g with
  | nil => simp
  | cons h1 rest2 ih =>
    intro h hh x hx y hy
    rw [List.chain'_cons] at hch
    rcases List.mem_cons.mp hh with rfl | hh2
    · exact hch.1 x hx y hy
    · have hne1 : h1 ≠ [] := hne h1 (List.mem_cons_self _ _)
      obtain ⟨z, hz⟩ := List.exists_mem_of_ne_nil h1 hne1
      have step1 : charsLT (f x) (f z) = true := hch.1 x hx z hz
      have step2 : charsLT (f z) (f y) = true :=
        ih h1 (fun h2 hh3 => hne h2 (List.mem_cons_of_mem _ hh3)) hch.2 h hh2 z hz y hy
      exact charsLT_trans _ _ _ step1 step2

theorem crossLT_pairwise (f : Nat → List Char) (gs : List (List Nat))
    (hne : ∀ g ∈ gs, g ≠ [])
    (hch : List.Chain' (fun g h => ∀ x ∈ g, ∀ y ∈ h, charsLT (f x) (f y) = true) gs) :
    gs.Pairwise (fun g h => ∀ x ∈ g, ∀ y ∈ h, charsLT (f x) (f y) = true) := by
  induction gs with
  | nil => exact List.Pairwise.nil
  | cons g rest ih =>
    refine List.Pairwise.cons ?_ ?_
    · exact crossLT_chain_head f g rest (fun h hh => hne h (List.mem_cons_of_mem _ hh)) hch
    · exact ih (fun h hh => hne h (List.mem_cons_of_mem _ hh)) hch.tail

theorem cmGroups_flatten (c : Ctx) : c.cmGroups.flatten = c.sortedCM :=
  groupRuns_flatten _ _

theorem mem_of_mem_cmGroups (c : Ctx) (g : List Nat) (hg : g ∈ c.cmGroups) (x : Nat)
    (hx : x ∈ g) : x ∈ c.sortedCM := by
  rw [← cmGroups_flatten c]
  exact List.mem_flatten.mpr ⟨g, hg, hx⟩

theorem sortedCM_nameLE (c : Ctx) :
    c.sortedCM.Pairwise (fun p q =>
      charsLT (((nameOfPos c.preSweep p).getD "").toList)
          (((nameOfPos c.preSweep q).getD "").toList) = true ∨
        ((nameOfPos c.preSweep p).getD "").toList
          = ((nameOfPos c.preSweep q).getD "").toList) := by
  refine (sortedCM_good c).imp ?_
  intro p q hpq
  have hkey := of_decide_eq_true hpq.1
  have := keyLE_name _ _ hkey
  rw [roleKey_name_eq, roleKey_name_eq] at this
  exact this

theorem cmGroups_cross_lt (c : Ctx) :
    c.cmGroups.Pairwise (fun g h => ∀ x ∈ g, ∀ y ∈ h,
      charsLT (((nameOfPos c.preSweep x).getD "").toList)
        (((nameOfPos c.preSweep y).getD "").toList) = true) := by
  have hLE := sortedCM_nameLE c
  rw [← cmGroups_flatten c] at hLE
  have hcrossLE := (List.pairwise_flatten.mp hLE).2
  have hchainLE := hcrossLE.chain'
  have hchainNE : List.Chain' (fun g h => ∀ x ∈ g, ∀ y ∈ h,
      nameOfPos c.preSweep x ≠ nameOfPos c.preSweep y) c.cmGroups :=
    groupRuns_chain_ne (nameOfPos c.preSweep) c.sortedCM
  have hQ : ∀ g ∈ c.cmGroups, ∀ x ∈ g, (nameOfPos c.preSweep x).isSome = true := by
    intro g hg x hx
    exact cmPos_name_isSome c x ((mem_sortedCM c x).mp (mem_of_mem_cmGroups c g hg x hx))
  have hchainLT := chain'_combine _ _
    (fun g h => ∀ x ∈ g, ∀ y ∈ h,
      charsLT (((nameOfPos c.preSweep x).getD "").toList)
        (((nameOfPos c.preSweep y).getD "").toList) = true)
    (fun g => ∀ x ∈ g, (nameOfPos c.preSweep x).isSome = true)
    c.cmGroups hchainLE hchainNE hQ ?_
  · exact crossLT_pairwise _ _ (groupRuns_ne_nil _ _) hchainLT
  · intro g h hQg hQh hle hne x hx y hy
    rcases hle x hx y hy with hlt | heq
    · exact hlt
    · exact absurd (nameOption_eq_of_chars c.preSweep x y (hQg x hx) (hQh y hy) heq)
        (hne x hx y hy)

theorem pair_components_mem (g : List Nat) (pq : Nat × Nat) (h : pq ∈ groupPairs g) :
    pq.1 ∈ g ∧ pq.2 ∈ g := by
  unfold groupPairs at h
  obtain ⟨a, b⟩ := pq
  have h2 := List.mem_zip h
  exact ⟨h2.1, (List.tail_sublist g).subset h2.2⟩

theorem allPairs_decomp (c : Ctx) (pq : Nat × Nat) (h : pq ∈ c.allPairs) :
    ∃ g ∈ c.cmGroups, pq ∈ groupPairs g := by
  unfold Ctx.allPairs at h
  obtain ⟨l, hl, hpq⟩ := List.mem_flatten.mp h
  obtain ⟨g, hg, rfl⟩ := List.mem_map.mp hl
  exact ⟨g, hg, hpq⟩

theorem allPairs_pos (c : Ctx) (pq : Nat × Nat) (h : pq ∈ c.allPairs) :
    pq.1 ∈ c.cmPositions ∧ pq.2 ∈ c.cmPositions := by
  obtain ⟨g, hg, hpq⟩ := allPairs_decomp c pq h
  have h2 := pair_components_mem g pq hpq
  exact ⟨(mem_sortedCM c _).mp (mem_of_mem_cmGroups c g hg _ h2.1),
    (mem_sortedCM c _).mp (mem_of_mem_cmGroups c g hg _ h2.2)⟩

theorem cmPos_facts (c : Ctx) (p : Nat) (hp : p ∈ c.cmPositions) :
    p < c.preSweep.length ∧
      (c.preSweep.getD p default).title = some RoleTitle.COUNCILMEMBER ∧
      (c.preSweep.getD p default).start_datetime.isSome = true ∧
      (c.preSweep.getD p default).end_datetime.isSome = true := by
  obtain ⟨hh, hlen, hcm⟩ := (cmPositions_spec c p).mp hp
  have h2 := is_cm_parts _ hcm
  exact ⟨hlen, h2.1, h2.2.1, h2.2.2⟩

theorem preSweep_le_ext_length (c : Ctx) : c.preSweep.length ≤ c.extendedRoles.length := by
  unfold Ctx.extendedRoles
  rw [List.length_append]
  omega

theorem H1_inst (c : Ctx) : ∀ pq ∈ c.allPairs,
    pq.1 < c.extendedRoles.length ∧ pq.2 < c.extendedRoles.length ∧
      (c.extendedRoles.getD pq.1 default).end_datetime.isSome = true ∧
      (c.extendedRoles.getD pq.2 default).start_datetime.isSome = true := by
  intro pq hpq
  obtain ⟨h1, h2⟩ := allPairs_pos c pq hpq
  obtain ⟨hl1, _, _, he1⟩ := cmPos_facts c _ h1
  obtain ⟨hl2, _, hs2, _⟩ := cmPos_facts c _ h2
  have hle := preSweep_le_ext_length c
  refine ⟨by omega, by omega, ?_, ?_⟩
  · rw [extended_getD c _ hl1]
    exact he1
  · rw [extended_getD c _ hl2]
    exact hs2

theorem zip_fst_dropLast (g : List Nat) : (g.zip g.tail).map Prod.fst = g.dropLast := by
  induction g with
  | nil => rfl
  | cons a t ih =>
    cases t with
    | nil => rfl
    | cons b t2 =>
      rw [List.tail_cons] at ih
      rw [List.tail_cons, List.zip_cons_cons, List.map_cons, ih]
      rfl

theorem flatten_map_fst (gs : List (List Nat)) :
    ((gs.map groupPairs).flatten).map Prod.fst = (gs.map List.dropLast).flatten := by
  induction gs with
  | nil => rfl
  | cons g rest ih =>
    simp only [List.map_cons, List.flatten_cons, List.map_append, ih]
    rw [show (groupPairs g).map Prod.fst = g.dropLast from zip_fst_dropLast g]

theorem flatten_dropLast_sublist (gs : List (List Nat)) :
    ((gs.map List.dropLast).flatten).Sublist gs.flatten := by
  induction gs with
  | nil => exact List.Sublist.refl _
  | cons g rest ih =>
    simp only [List.map_cons, List.flatten_cons]
    exact List.Sublist.append (List.dropLast_sublist g) ih

theorem H2_inst (c : Ctx) : c.allPairs.Pairwise (fun pq rs => pq.1 ≠ rs.1) := by
  have hnd : (c.allPairs.map Prod.fst).Nodup := by
    unfold Ctx.allPairs
    rw [flatten_map_fst]
    refine (flatten_dropLast_sublist c.cmGroups).nodup ?_
    rw [cmGroups_flatten c]
    exact sortedCM_nodup c
  exact List.pairwise_map.mp hnd

theorem bodyNameI_ext (c : Ctx) (p : Nat) (h : p < c.preSweep.length) :
    bodyNameI c.extendedRoles p = nameOfPos c.preSweep p := by
  unfold bodyNameI nameOfPos
  rw [extended_getD c p h]

theorem startI_ext (c : Ctx) (p : Nat) (h : p < c.preSweep.length) :
    startI c.extendedRoles p = startI c.preSweep p := by
  unfold startI
  rw [extended_getD c p h]

theorem endI_ext (c : Ctx) (p : Nat) (h : p < c.preSweep.length) :
    endI c.extendedRoles p = endI c.preSweep p := by
  unfold endI
  rw [extended_getD c p h]

theorem group_sublist (c : Ctx) (g : List Nat) (hg : g ∈ c.cmGroups) :
    g.Sublist c.sortedCM := by
  rw [← cmGroups_flatten c]
  exact List.sublist_flatten_of_mem hg

theorem group_good (c : Ctx) (g : List Nat) (hg : g ∈ c.cmGroups) :
    g.Pairwise (fun p q => posLE c.preSweep p q = true ∧
      (posLE c.preSweep q p = true → p < q)) :=
  (sortedCM_good c).sublist (group_sublist c g hg)

theorem group_names_const (c : Ctx) (g : List Nat) (hg : g ∈ c.cmGroups) :
    ∀ x ∈ g, ∀ y ∈ g, nameOfPos c.preSweep x = nameOfPos c.preSweep y :=
  groupRuns_const (nameOfPos c.preSweep) c.sortedCM g hg

theorem group_start_mono (c : Ctx) (g : List Nat) (hg : g ∈ c.cmGroups) :
    g.Pairwise (fun x y => startI c.preSweep x ≤ startI c.preSweep y) := by
  refine (group_good c g hg).imp_of_mem ?_
  intro x y hx hy hxy
  have hnames := group_names_const c g hg x hx y hy
  have hchars : (roleKey (c.preSweep.getD x default)).1
      = (roleKey (c.preSweep.getD y default)).1 := by
    rw [roleKey_name_eq, roleKey_name_eq, hnames]
  have hst := keyLE_start _ _ (of_decide_eq_true hxy.1) hchars
  rw [roleKey_start_eq, roleKey_start_eq] at hst
  exact hst

theorem group_pos_lt_of_eq (c : Ctx) (g : List Nat) (hg : g ∈ c.cmGroups) :
    g.Pairwise (fun x y => c.preSweep.getD y default = c.preSweep.getD x default → x < y) := by
  refine (group_good c g hg).imp ?_
  intro x y hxy heq
  refine hxy.2 ?_
  unfold posLE
  rw [heq]
  exact decide_eq_true (keyLE_refl _)

theorem H3_inst (c : Ctx) : c.allPairs.Pairwise (fun pq rs =>
    bodyNameI c.extendedRoles pq.1 = bodyNameI c.extendedRoles rs.1 →
      startI c.extendedRoles pq.2 ≤ startI c.extendedRoles rs.2) := by
  unfold Ctx.allPairs
  rw [List.pairwise_flatten]
  constructor
  · intro l hl
    obtain ⟨g, hg, rfl⟩ := List.mem_map.mp hl
    have hmono := group_start_mono c g hg
    have htail : g.tail.Pairwise (fun x y => startI c.preSweep x ≤ startI c.preSweep y) :=
      hmono.sublist (List.tail_sublist g)
    have hzipmap : (groupPairs g).map Prod.snd = g.tail :=
      List.map_snd_zip _ _ (by simp [List.length_tail])
    have hz0 : ((groupPairs g).map Prod.snd).Pairwise
        (fun x y => startI c.preSweep x ≤ startI c.preSweep y) := by
      rw [hzipmap]
      exact htail
    have hz : (groupPairs g).Pairwise
        (fun pq rs => startI c.preSweep pq.2 ≤ startI c.preSweep rs.2) :=
      (@List.pairwise_map (Nat × Nat) Nat Prod.snd
        (fun x y => startI c.preSweep x ≤ startI c.preSweep y) (groupPairs g)).mp hz0
    refine hz.imp_of_mem ?_
    intro pq rs hpq hrs h2 hname
    have hm1 := (pair_components_mem g pq hpq).2
    have hm2 := (pair_components_mem g rs hrs).2
    have hl1 := (cmPos_facts c _ ((mem_sortedCM c _).mp
      (mem_of_mem_cmGroups c g hg _ hm1))).1
    have hl2 := (cmPos_facts c _ ((mem_sortedCM c _).mp
      (mem_of_mem_cmGroups c g hg _ hm2))).1
    rw [startI_ext c _ hl1, startI_ext c _ hl2]
    exact h2
  · rw [List.pairwise_map]
    refine (cmGroups_cross_lt c).imp_of_mem ?_
    intro g h hgmem hhmem hlt pq hpq rs hrs hname
    exfalso
    have hm1 := (pair_components_mem g pq hpq).1
    have hm2 := (pair_components_mem h rs hrs).1
    have hl1 := (cmPos_facts c _ ((mem_sortedCM c _).mp
      (mem_of_mem_cmGroups c g hgmem _ hm1))).1
    have hl2 := (cmPos_facts c _ ((mem_sortedCM c _).mp
      (mem_of_mem_cmGroups c h hhmem _ hm2))).1
    rw [bodyNameI_ext c _ hl1, bodyNameI_ext c _ hl2] at hname
    have hchars : ((nameOfPos c.preSweep pq.1).getD "").toList
        = ((nameOfPos c.preSweep rs.1).getD "").toList := by rw [hname]
    have := hlt pq.1 hm1 rs.1 hm2
    rw [hchars, charsLT_irrefl] at this
    exact absurd this (by simp)

theorem H4_inst (c : Ctx) : c.allPairs.Pairwise (fun pq rs =>
    c.extendedRoles.getD rs.1 default = c.extendedRoles.getD pq.1 default →
      pq.1 < rs.1) := by
  unfold Ctx.allPairs
  rw [List.pairwise_flatten]
  constructor
  · intro l hl
    obtain ⟨g, hg, rfl⟩ := List.mem_map.mp hl
    have hlt := group_pos_lt_of_eq c g hg
    have hdl : g.dropLast.Pairwise
        (fun x y => c.preSweep.getD y default = c.preSweep.getD x default → x < y) :=
      hlt.sublist (List.dropLast_sublist g)
    have hz0 : ((groupPairs g).map Prod.fst).Pairwise
        (fun x y => c.preSweep.getD y default = c.preSweep.getD x default → x < y) := by
      rw [show (groupPairs g).map Prod.fst = g.dropLast from zip_fst_dropLast g]
      exact hdl
    have hz : (groupPairs g).Pairwise (fun pq rs =>
        c.preSweep.getD rs.1 default = c.preSweep.getD pq.1 default → pq.1 < rs.1) :=
      (@List.pairwise_map (Nat × Nat) Nat Prod.fst
        (fun x y => c.preSweep.getD y default = c.preSweep.getD x default → x < y)
        (groupPairs g)).mp hz0
    refine hz.imp_of_mem ?_
    intro pq rs hpq hrs h2 hname
    have hm1 := (pair_components_mem g pq hpq).1
    have hm2 := (pair_components_mem g rs hrs).1
    have hl1 := (cmPos_facts c _ ((mem_sortedCM c _).mp
      (mem_of_mem_cmGroups c g hg _ hm1))).1
    have hl2 := (cmPos_facts c _ ((mem_sortedCM c _).mp
      (mem_of_mem_cmGroups c g hg _ hm2))).1
    rw [extended_getD c _ hl1, extended_getD c _ hl2] at hname
    exact h2 hname
  · rw [List.pairwise_map]
    refine (cmGroups_cross_lt c).imp_of_mem ?_
    intro g h hgmem hhmem hlt pq hpq rs hrs hname
    exfalso
    have hm1 := (pair_components_mem g pq hpq).1
    have hm2 := (pair_components_mem h rs hrs).1
    have hl1 := (cmPos_facts c _ ((mem_sortedCM c _).mp
      (mem_of_mem_cmGroups c g hgmem _ hm1))).1
    have hl2 := (cmPos_facts c _ ((mem_sortedCM c _).mp
      (mem_of_mem_cmGroups c h hhmem _ hm2))).1
    rw [extended_getD c _ hl1, extended_getD c _ hl2] at hname
    have hnm : nameOfPos c.preSweep pq.1 = nameOfPos c.preSweep rs.1 := by
      unfold nameOfPos
      rw [hname]
    have hchars : ((nameOfPos c.preSweep pq.1).getD "").toList
        = ((nameOfPos c.preSweep rs.1).getD "").toList := by rw [hnm]
    have := hlt pq.1 hm1 rs.1 hm2
    rw [hchars, charsLT_irrefl] at this
    exact absurd this (by simp)

theorem pair_sublist (u w v : List Nat) (x y : Nat) :
    [x, y].Sublist (u ++ x :: (w ++ y :: v)) := by
  have h1 : [y].Sublist (w ++ y :: v) :=
    List.Sublist.trans (List.cons_sublist_cons.mpr (List.nil_sublist v))
      (List.sublist_append_right w (y :: v))
  have h2 : [x, y].Sublist (x :: (w ++ y :: v)) := List.cons_sublist_cons.mpr h1
  exact List.Sublist.trans h2 (List.sublist_append_right u _)

theorem mem_mem_split {x y : Nat} {l : List Nat} (hx : x ∈ l) (hy : y ∈ l) (hxy : x ≠ y) :
    (∃ u w v, l = u ++ x :: (w ++ y :: v)) ∨ ∃ u w v, l = u ++ y :: (w ++ x :: v) := by
  obtain ⟨u, t, rfl⟩ := List.append_of_mem hx
  rcases List.mem_append.mp hy with hyu | hyt
  · obtain ⟨u1, t1, rfl⟩ := List.append_of_mem hyu
    right
    exact ⟨u1, t1, t, by simp⟩
  · rcases List.mem_cons.mp hyt with rfl | hyt2
    · exact absurd rfl hxy
    · obtain ⟨w, v, rfl⟩ := List.append_of_mem hyt2
      left
      exact ⟨u, w, v, rfl⟩

theorem good_of_decomp (c : Ctx) {x y : Nat} {u w v : List Nat}
    (hdec : c.sortedCM = u ++ x :: (w ++ y :: v)) :
    posLE c.preSweep x y = true ∧ (posLE c.preSweep y x = true → x < y) := by
  have hsub := pair_sublist u w v x y
  rw [← hdec] at hsub
  have hp := (sortedCM_good c).sublist hsub
  exact (List.pairwise_cons.mp hp).1 y (List.mem_cons_self _ _)

theorem zip_adjacent_mem (g1 g2 : List Nat) (q r : Nat) :
    (q, r) ∈ (g1 ++ q :: r :: g2).zip ((g1 ++ q :: r :: g2).tail) := by
  induction g1 with
  | nil =>
    rw [List.nil_append, List.tail_cons, List.zip_cons_cons]
    exact List.mem_cons_self _ _
  | cons x g1t ih =>
    have hA : ∃ hd tl, g1t ++ q :: r :: g2 = hd :: tl := by
      cases g1t with
      | nil => exact ⟨q, r :: g2, rfl⟩
      | cons z zs => exact ⟨z, zs ++ q :: r :: g2, by simp⟩
    obtain ⟨hd, tl, hht⟩ := hA
    rw [List.cons_append, List.tail_cons, hht, List.zip_cons_cons]
    rw [hht] at ih
    rw [List.tail_cons] at ih
    exact List.mem_cons_of_mem _ ih

theorem H5_inst (c : Ctx) : ∀ pq ∈ c.allPairs, ∀ q : Nat, q < pq.1 →
    c.extendedRoles.getD q default = c.extendedRoles.getD pq.1 default →
    ∃ cpos, (q, cpos) ∈ c.allPairs := by
  intro pq hpq q hqlt heq
  have hpos := (allPairs_pos c pq hpq).1
  obtain ⟨hhpr, halen, hacm⟩ := (cmPositions_spec c pq.1).mp hpos
  have hqlen : q < c.preSweep.length := by omega
  rw [extended_getD c q hqlen, extended_getD c pq.1 halen] at heq
  have hqcm : q ∈ c.cmPositions := by
    rw [cmPositions_spec]
    refine ⟨hhpr, hqlen, ?_⟩
    rw [heq]
    exact hacm
  have hqS : q ∈ c.sortedCM := (mem_sortedCM c q).mpr hqcm
  have haS : q ∈ c.sortedCM → pq.1 ∈ c.sortedCM := fun _ => (mem_sortedCM c _).mpr hpos
  have haS2 := haS hqS
  have hqa : q ≠ pq.1 := by omega
  have hkeyeq : roleKey (c.preSweep.getD q default) = roleKey (c.preSweep.getD pq.1 default) := by
    rw [heq]
  rcases mem_mem_split hqS haS2 hqa with hcase | hcase
  · obtain ⟨u, w, v, hdec⟩ := hcase
    have hr : ∃ r v2, c.sortedCM = u ++ q :: (r :: v2) ∧
        (r = pq.1 ∨ ∃ w2, w = r :: w2 ∧ pq.1 ∈ r :: w2 ++ pq.1 :: v) := by
      cases w with
      | nil => exact ⟨pq.1, v, by simpa using hdec, Or.inl rfl⟩
      | cons r w2 =>
        refine ⟨r, w2 ++ pq.1 :: v, by simpa using hdec, Or.inr ⟨w2, rfl, ?_⟩⟩
        simp
    obtain ⟨r, v2, hdec2, hrcase⟩ := hr
    have hrS : r ∈ c.sortedCM := by
      rw [hdec2]
      simp
    have hgoodqr : posLE c.preSweep q r = true := by
      have := good_of_decomp c (show c.sortedCM = u ++ q :: ([] ++ r :: v2) by
        simpa using hdec2)
      exact this.1
    have hkeyqr : roleKey (c.preSweep.getD q default) = roleKey (c.preSweep.getD r default) := by
      rcases hrcase with rfl | ⟨w2, hw, hmem⟩
      · exact hkeyeq
      · have hgoodra : posLE c.preSweep r pq.1 = true := by
          have hdec3 : c.sortedCM = (u ++ [q]) ++ r :: (w2 ++ pq.1 :: v) := by
            rw [hdec, hw]
            simp
          exact (good_of_decomp c hdec3).1
        have h1 := of_decide_eq_true hgoodqr
        have h2 := of_decide_eq_true hgoodra
        rw [hkeyeq] at h1
        exact (keyLE_antisymm _ _ (of_decide_eq_true hgoodqr)
          (keyLE_trans _ _ _ h2 (by rw [← hkeyeq]; exact keyLE_refl _))).symm ▸ rfl
    have hnameqr : nameOfPos c.preSweep q = nameOfPos c.preSweep r := by
      refine nameOption_eq_of_chars c.preSweep q r
        (cmPos_name_isSome c q hqcm)
        (cmPos_name_isSome c r ((mem_sortedCM c r).mp hrS)) ?_
      rw [← roleKey_name_eq, ← roleKey_name_eq, hkeyqr]
    obtain ⟨g, hg, g1, g2, hgdec⟩ :=
      groupRuns_adjacent (nameOfPos c.preSweep) u q r v2 hnameqr
    have hgmem : g ∈ c.cmGroups := by
      unfold Ctx.cmGroups
      rw [hdec2]
      exact hg
    refine ⟨r, ?_⟩
    unfold Ctx.allPairs
    rw [List.mem_flatten]
    refine ⟨groupPairs g, List.mem_map.mpr ⟨g, hgmem, rfl⟩, ?_⟩
    unfold groupPairs
    rw [hgdec]
    exact zip_adjacent_mem g1 g2 q r
  · obtain ⟨u, w, v, hdec⟩ := hcase
    exfalso
    have hgood := good_of_decomp c hdec
    have : pq.1 < q := hgood.2 (by
      unfold posLE
      rw [hkeyeq]
      exact decide_eq_true (keyLE_refl _))
    omega

theorem sweepInv_final (c : Ctx) : SweepInv c.extendedRoles c.allPairs c.finalRoles := by
  have hbase : SweepInv c.extendedRoles [] c.extendedRoles := by
    refine ⟨rfl, fun p _ => rfl, ?_⟩
    intro pq h
    exact absurd h (List.not_mem_nil _)
  have := sweep_inv_main c.extendedRoles c.allPairs (H1_inst c) (H2_inst c) (H3_inst c)
    (H4_inst c) (H5_inst c) [] c.allPairs c.extendedRoles (by simp) hbase
  exact this

theorem finalRoles_pair_spec (c : Ctx) (pq : Nat × Nat) (hpq : pq ∈ c.allPairs) :
    c.finalRoles.getD pq.1 default = truncSpec c.extendedRoles pq.1 pq.2 :=
  (sweepInv_final c).2.2 pq hpq

theorem finalRoles_untouched (c : Ctx) (p : Nat)
    (hp : ∀ pq ∈ c.allPairs, pq.1 ≠ p) :
    c.finalRoles.getD p default = c.extendedRoles.getD p default :=
  (sweepInv_final c).2.1 p hp

theorem group_adjacent_pair (c : Ctx) (g : List Nat) (hg : g ∈ c.cmGroups) (i : Nat)
    (hi : i + 1 < g.length) : (g.getD i 0, g.getD (i + 1) 0) ∈ c.allPairs := by
  unfold Ctx.allPairs
  rw [List.mem_flatten]
  refine ⟨groupPairs g, List.mem_map.mpr ⟨g, hg, rfl⟩, ?_⟩
  unfold groupPairs
  have hzl : (g.zip g.tail).length = g.length - 1 := by
    rw [List.length_zip, List.length_tail]
    omega
  have hiz : i < (g.zip g.tail).length := by omega
  have hgl : i < g.length := by omega
  have htl : i < g.tail.length := by
    rw [List.length_tail]
    omega
  have hget : (g.zip g.tail)[i] = (g[i], g.tail[i]) := List.getElem_zip
  have hget2 : g.tail[i] = g[i + 1] := List.getElem_tail g i htl
  have hmem : (g.zip g.tail)[i] ∈ g.zip g.tail := List.getElem_mem hiz
  rw [hget, hget2] at hmem
  have hg1 : g[i] = g.getD i 0 := by
    rw [List.getD_eq_getElem?_getD, List.getElem?_eq_getElem (by omega)]
    rfl
  have hg2 : g[i + 1] = g.getD (i + 1) 0 := by
    rw [List.getD_eq_getElem?_getD, List.getElem?_eq_getElem hi]
    rfl
  rw [hg1, hg2] at hmem
  exact hmem

/-- C7: in the conflict-resolution sweep, for every body group and every
index i past the first, the value left at the previous position of the pair
is exactly: the end bound truncated to the current start minus one day when
the previous end strictly exceeds the current start, and the original role,
untouched, otherwise (in particular, equal boundaries modify nothing). -/
theorem C7_sweep_truncation (c : Ctx) (g : List Nat) (hg : g ∈ c.cmGroups) (i : Nat)
    (hi : i + 1 < g.length) :
    c.finalRoles.getD (g.getD i 0) default =
      (if startI c.extendedRoles (g.getD (i + 1) 0) < endI c.extendedRoles (g.getD i 0) then
        { (c.extendedRoles.getD (g.getD i 0) default) with
          end_datetime := some (startI c.extendedRoles (g.getD (i + 1) 0) - 1) }
      else c.extendedRoles.getD (g.getD i 0) default) := by
  have hpair := group_adjacent_pair c g hg i hi
  have := finalRoles_pair_spec c (g.getD i 0, g.getD (i + 1) 0) hpair
  rw [this]
  rfl

/-- Closed instance of the C7 theorem: the concrete overlapping pair is
truncated to start minus one day. -/
theorem C7_witness :
    [0, 1] ∈ c7Ctx.cmGroups ∧ 0 + 1 < ([0, 1] : List Nat).length ∧
      c7Ctx.finalRoles.getD (([0, 1] : List Nat).getD 0 0) default =
        (if startI c7Ctx.extendedRoles (([0, 1] : List Nat).getD (0 + 1) 0)
            < endI c7Ctx.extendedRoles (([0, 1] : List Nat).getD 0 0) then
          { (c7Ctx.extendedRoles.getD (([0, 1] : List Nat).getD 0 0) default) with
            end_datetime := some (startI c7Ctx.extendedRoles
              (([0, 1] : List Nat).getD (0 + 1) 0) - 1) }
        else c7Ctx.extendedRoles.getD (([0, 1] : List Nat).getD 0 0) default) :=
  ⟨by decide, by decide, C7_sweep_truncation c7Ctx [0, 1] (by decide) 0 (by decide)⟩

theorem final_fields (c : Ctx) (p : Nat) (hp : p < c.preSweep.length) :
    (c.finalRoles.getD p default).title = (c.preSweep.getD p default).title ∧
    (c.finalRoles.getD p default).body = (c.preSweep.getD p default).body ∧
    (c.finalRoles.getD p default).start_datetime
      = (c.preSweep.getD p default).start_datetime ∧
    (c.finalRoles.getD p default).end_datetime.isSome
      = (c.preSweep.getD p default).end_datetime.isSome := by
  have h := sweepFold_fields c.allPairs c.extendedRoles p
  have he := extended_getD c p hp
  unfold Ctx.finalRoles
  rw [← he]
  exact h

theorem hpr_no_cm (c : Ctx) (p : Nat) (hp : p < c.preSweep.length) (hh : c.hpr = true) :
    (c.preSweep.getD p default).title ≠ some RoleTitle.COUNCILMEMBER := by
  have hkl : p < c.keptList.length := by
    have := preSweep_length c
    omega
  rw [preSweep_getD c p hkl, retitle_title]
  have hnp := keepRole_nonprimary c _ (keptList_keep c _ (getD_mem c.keptList p hkl)) hh
  rw [if_neg (by rw [hnp]; simp)]
  intro hcontra
  exact (fix_nonprimary_ne _ _).1 (Option.some_injective _ hcontra)

theorem cm_in_positions (c : Ctx) (p : Nat) (hp : p < c.preSweep.length)
    (hh : c.hpr = false)
    (ht : (c.preSweep.getD p default).title = some RoleTitle.COUNCILMEMBER)
    (hs : (c.preSweep.getD p default).start_datetime.isSome = true)
    (he : (c.preSweep.getD p default).end_datetime.isSome = true) :
    p ∈ c.cmPositions := by
  rw [cmPositions_spec]
  refine ⟨hh, hp, ?_⟩
  unfold is_councilmember_term
  simp only [Bool.and_eq_true, beq_iff_eq]
  exact ⟨⟨ht, hs⟩, he⟩

theorem preSweep_bounds_isSome (c : Ctx) (p : Nat) (hp : p < c.preSweep.length) :
    (c.preSweep.getD p default).start_datetime.isSome = true ∧
      (c.preSweep.getD p default).end_datetime.isSome = true := by
  have hkl : p < c.keptList.length := by
    have := preSweep_length c
    omega
  have hmem := getD_mem c.keptList p hkl
  have hper := keepRole_period c _ (keptList_keep c _ hmem)
  have hsome := period_ok_isSome _ _ _ _ hper
  rw [preSweep_getD c p hkl, retitle_start, retitle_end]
  exact hsome

/-- C1 (amended): any two roles of the returned list that derive from the
scraped input, are classified Councilmember, and carry the same raw body
name string have non-overlapping tenures: the one with the earlier start
has its end bound at or before the later start.  The claim as stated, with
body identity up to whitespace simplification and case folding, is refuted
by the C1 counterexample; the sweep groups by the raw body.name value. -/
theorem C1_no_overlap_amended (c : Ctx) (p1 p2 : Nat) (s1 s2 e1 : Int)
    (h1 : p1 < c.scrapedCount) (h2 : p2 < c.scrapedCount)
    (ht1 : (c.finalRoles.getD p1 default).title = some RoleTitle.COUNCILMEMBER)
    (ht2 : (c.finalRoles.getD p2 default).title = some RoleTitle.COUNCILMEMBER)
    (hname : nameOfPos c.finalRoles p1 = nameOfPos c.finalRoles p2)
    (hs1 : (c.finalRoles.getD p1 default).start_datetime = some s1)
    (hs2 : (c.finalRoles.getD p2 default).start_datetime = some s2)
    (he1 : (c.finalRoles.getD p1 default).end_datetime = some e1)
    (hlt : s1 < s2) : e1 ≤ s2 := by
  have hp1 : p1 < c.preSweep.length := h1
  have hp2 : p2 < c.preSweep.length := h2
  have hf1 := final_fields c p1 hp1
  have hf2 := final_fields c p2 hp2
  have ht1p : (c.preSweep.getD p1 default).title = some RoleTitle.COUNCILMEMBER := by
    rw [← hf1.1]
    exact ht1
  have ht2p : (c.preSweep.getD p2 default).title = some RoleTitle.COUNCILMEMBER := by
    rw [← hf2.1]
    exact ht2
  cases hh : c.hpr with
  | true => exact absurd ht1p (hpr_no_cm c p1 hp1 hh)
  | false =>
  have hs1p : (c.preSweep.getD p1 default).start_datetime = some s1 := by
    rw [← hf1.2.2.1]
    exact hs1
  have hs2p : (c.preSweep.getD p2 default).start_datetime = some s2 := by
    rw [← hf2.2.2.1]
    exact hs2
  have hnamep : nameOfPos c.preSweep p1 = nameOfPos c.preSweep p2 := by
    unfold nameOfPos at hname ⊢
    rw [← hf1.2.1, ← hf2.2.1]
    exact hname
  have hcm1 : p1 ∈ c.cmPositions := cm_in_positions c p1 hp1 hh ht1p
    (preSweep_bounds_isSome c p1 hp1).1 (preSweep_bounds_isSome c p1 hp1).2
  have hcm2 : p2 ∈ c.cmPositions := cm_in_positions c p2 hp2 hh ht2p
    (preSweep_bounds_isSome c p2 hp2).1 (preSweep_bounds_isSome c p2 hp2).2
  have hstart1 : startI c.preSweep p1 = s1 := by
    unfold startI
    rw [hs1p]
    rfl
  have hstart2 : startI c.preSweep p2 = s2 := by
    unfold startI
    rw [hs2p]
    rfl
  have hne12 : p1 ≠ p2 := by
    intro hcontra
    rw [hcontra, hstart2] at hstart1
    omega
  have hS1 : p1 ∈ c.sortedCM := (mem_sortedCM c p1).mpr hcm1
  have hS2 : p2 ∈ c.sortedCM := (mem_sortedCM c p2).mpr hcm2
  have hchars12 : ((nameOfPos c.preSweep p1).getD "").toList
      = ((nameOfPos c.preSweep p2).getD "").toList := by rw [hnamep]
  have hkey : ∃ r, (p1, r) ∈ c.allPairs ∧ startI c.preSweep r ≤ s2 := by
    rcases mem_mem_split hS1 hS2 hne12 with hcase | hcase
    · obtain ⟨u, w, v, hdec⟩ := hcase
      cases w with
      | nil =>
        have hdec2 : c.sortedCM = u ++ p1 :: (p2 :: v) := by simpa using hdec
        obtain ⟨g, hg, g1, g2, hgdec⟩ :=
          groupRuns_adjacent (nameOfPos c.preSweep) u p1 p2 v hnamep
        have hgmem : g ∈ c.cmGroups := by
          unfold Ctx.cmGroups
          rw [hdec2]
          exact hg
        refine ⟨p2, ?_, by omega⟩
        unfold Ctx.allPairs
        rw [List.mem_flatten]
        refine ⟨groupPairs g, List.mem_map.mpr ⟨g, hgmem, rfl⟩, ?_⟩
        unfold groupPairs
        rw [hgdec]
        exact zip_adjacent_mem g1 g2 p1 p2
      | cons r w2 =>
        have hdecA : c.sortedCM = u ++ p1 :: (r :: (w2 ++ p2 :: v)) := by simpa using hdec
        have hrS : r ∈ c.sortedCM := by
          rw [hdecA]
          simp
        have hrcm : r ∈ c.cmPositions := (mem_sortedCM c r).mp hrS
        have hgood1 : posLE c.preSweep p1 r = true := by
          have := good_of_decomp c (show c.sortedCM = u ++ p1 :: ([] ++ r :: (w2 ++ p2 :: v))
            by simpa using hdecA)
          exact this.1
        have hgood2 : posLE c.preSweep r p2 = true := by
          have := good_of_decomp c (show c.sortedCM = (u ++ [p1]) ++ r :: (w2 ++ p2 :: v)
            by rw [hdecA]; simp)
          exact this.1
        have hn1r := keyLE_name _ _ (of_decide_eq_true hgood1)
        have hnr2 := keyLE_name _ _ (of_decide_eq_true hgood2)
        rw [roleKey_name_eq, roleKey_name_eq] at hn1r hnr2
        have hchars1r : ((nameOfPos c.preSweep p1).getD "").toList
            = ((nameOfPos c.preSweep r).getD "").toList := by
          rcases hn1r with hlt1 | heq1
          · rcases hnr2 with hlt2 | heq2
            · exfalso
              have := charsLT_trans _ _ _ hlt1 hlt2
              rw [← hchars12, charsLT_irrefl] at this
              exact absurd this (by simp)
            · exfalso
              rw [heq2, ← hchars12, charsLT_irrefl] at hlt1
              exact absurd hlt1 (by simp)
          · exact heq1
        have hOptname : nameOfPos c.preSweep p1 = nameOfPos c.preSweep r :=
          nameOption_eq_of_chars c.preSweep p1 r (cmPos_name_isSome c p1 hcm1)
            (cmPos_name_isSome c r hrcm) hchars1r
        have hstartr : startI c.preSweep r ≤ s2 := by
          have hst := keyLE_start _ _ (of_decide_eq_true hgood2)
            (by rw [roleKey_name_eq, roleKey_name_eq, ← hchars1r, hchars12])
          rw [roleKey_start_eq, roleKey_start_eq, hstart2] at hst
          exact hst
        obtain ⟨g, hg, g1, g2, hgdec⟩ :=
          groupRuns_adjacent (nameOfPos c.preSweep) u p1 r (w2 ++ p2 :: v) hOptname
        have hgmem : g ∈ c.cmGroups := by
          unfold Ctx.cmGroups
          rw [hdecA]
          exact hg
        refine ⟨r, ?_, hstartr⟩
        unfold Ctx.allPairs
        rw [List.mem_flatten]
        refine ⟨groupPairs g, List.mem_map.mpr ⟨g, hgmem, rfl⟩, ?_⟩
        unfold groupPairs
        rw [hgdec]
        exact zip_adjacent_mem g1 g2 p1 r
    · obtain ⟨u, w, v, hdec⟩ := hcase
      exfalso
      have hgood := good_of_decomp c hdec
      have hkle := keyLE_start _ _ (of_decide_eq_true hgood.1)
        (by rw [roleKey_name_eq, roleKey_name_eq, hchars12])
      rw [roleKey_start_eq, roleKey_start_eq, hstart1, hstart2] at hkle
      omega
  obtain ⟨r, hprmem, hrle⟩ := hkey
  have hrpos := (allPairs_pos c (p1, r) hprmem).2
  have hrlen := (cmPos_facts c _ hrpos).1
  have hspec := finalRoles_pair_spec c (p1, r) hprmem
  dsimp only at hspec
  rw [hspec] at he1
  unfold truncSpec at he1
  have hstartext : startI c.extendedRoles r = startI c.preSweep r := startI_ext c r hrlen
  split at he1
  · rename_i hfire
    have hval : some (startI c.extendedRoles r - 1) = some e1 := he1
    have := Option.some_injective _ hval
    rw [hstartext] at this
    omega
  · rename_i hnofire
    have hendval : endI c.extendedRoles p1 = e1 := by
      unfold endI
      rw [he1]
      rfl
    rw [hstartext] at hnofire
    omega

/-- C1 is false as stated: two overlapping scraped councilmember roles whose
body names agree after whitespace simplification and case folding, but
differ as raw strings, are placed in different groups by the sweep and come
out still overlapping. -/
theorem C1_counterexample :
    (c1Ctx.finalRoles.getD 0 default).title = some RoleTitle.COUNCILMEMBER ∧
    (c1Ctx.finalRoles.getD 1 default).title = some RoleTitle.COUNCILMEMBER ∧
    0 < c1Ctx.scrapedCount ∧ 1 < c1Ctx.scrapedCount ∧
    strLower (str_simplified (((c1Ctx.finalRoles.getD 0 default).body.bind
        Body.name).getD ""))
      = strLower (str_simplified (((c1Ctx.finalRoles.getD 1 default).body.bind
        Body.name).getD "")) ∧
    (c1Ctx.finalRoles.getD 0 default).start_datetime = some 0 ∧
    (c1Ctx.finalRoles.getD 1 default).start_datetime = some 5 ∧
    (c1Ctx.finalRoles.getD 0 default).end_datetime = some 10 ∧
    ¬((10 : Int) ≤ 5) := by
  refine ⟨by decide, by decide, by decide, by decide, by decide, by decide, by decide,
    by decide, by decide⟩

/-- Closed instance of the C1 amended theorem at a concrete overlapping
pair on one raw body name. -/
theorem C1_witness :
    (0 < c5Ctx.scrapedCount ∧ 1 < c5Ctx.scrapedCount ∧
      (c5Ctx.finalRoles.getD 0 default).title = some RoleTitle.COUNCILMEMBER ∧
      (c5Ctx.finalRoles.getD 1 default).title = some RoleTitle.COUNCILMEMBER ∧
      nameOfPos c5Ctx.finalRoles 0 = nameOfPos c5Ctx.finalRoles 1 ∧
      (c5Ctx.finalRoles.getD 0 default).start_datetime = some 0 ∧
      (c5Ctx.finalRoles.getD 1 default).start_datetime = some 5 ∧
      (c5Ctx.finalRoles.getD 0 default).end_datetime = some 4 ∧
      (0 : Int) < 5) ∧
    (4 : Int) ≤ 5 :=
  ⟨⟨by decide, by decide, by decide, by decide, by decide, by decide, by decide,
    by decide, by decide⟩,
    C1_no_overlap_amended c5Ctx 0 1 0 5 4 (by decide) (by decide) (by decide) (by decide)
      (by decide) (by decide) (by decide) (by decide) (by decide)⟩

theorem sweep_nofire (base : List Role) (P : List (Nat × Nat))
    (H : ∀ pq ∈ P, endI base pq.1 ≤ startI base pq.2) :
    P.foldl sweepStep base = base := by
  induction P with
  | nil => rfl
  | cons pq rest ih =>
    have hstep : sweepStep base pq = base := by
      unfold sweepStep
      cases he : (base.getD pq.1 default).end_datetime with
      | none => rfl
      | some pe =>
        cases hs : (base.getD pq.2 default).start_datetime with
        | none => rfl
        | some cs =>
          have hpe : endI base pq.1 = pe := by
            unfold endI
            rw [he]
            rfl
          have hcs : startI base pq.2 = cs := by
            unfold startI
            rw [hs]
            rfl
          have := H pq (List.mem_cons_self _ _)
          show (if cs < pe then
              truncAt base (indexOfFirst (fun r => decide (r = base.getD pq.1 default)) base) cs
            else base) = base
          rw [if_neg (by omega)]
    rw [List.foldl_cons, hstep]
    exact ih (fun pq2 h2 => H pq2 (List.mem_cons_of_mem _ h2))

theorem role_title_eta (r : Role) (t : Option String) (h : r.title = t) :
    { r with title := t } = r := by
  cases r
  simp only at h
  rw [← h]

theorem period_retitle (hpr : Bool) (srs : List Role) (now : Int)
    (pn cp ch : List String) (r : Role) :
    is_role_period_ok hpr srs now (retitleRole pn cp ch r)
      = is_role_period_ok hpr srs now r := by
  unfold is_role_period_ok
  rw [retitle_start, retitle_end]

theorem fix_primary_fixed (role : Role) (t : String)
    (ht : t = RoleTitle.COUNCILMEMBER ∨ t = RoleTitle.COUNCILPRESIDENT)
    (hrt : role.title = some t) :
    fix_primary_title councilPresDefaults role = t := by
  unfold fix_primary_title
  rw [hrt]
  rcases ht with rfl | rfl
  · decide
  · decide

theorem fix_nonprimary_fixed (role : Role) (t : String)
    (ht : t = RoleTitle.MEMBER ∨ t = RoleTitle.VICE_CHAIR ∨ t = RoleTitle.ALTERNATE ∨
      t = RoleTitle.SUPERVISOR ∨ t = RoleTitle.CHAIR)
    (hrt : role.title = some t) :
    fix_nonprimary_title chairDefaults role = t := by
  unfold fix_nonprimary_title
  rw [hrt]
  rcases ht with rfl | rfl | rfl | rfl | rfl <;> decide

theorem retitle_as_update (pn cp ch : List String) (r : Role) :
    retitleRole pn cp ch r =
      { r with title := some (if is_primary_body pn r then fix_primary_title cp r
          else fix_nonprimary_title ch r) } := by
  unfold retitleRole
  by_cases h : is_primary_body pn r = true
  · rw [if_pos h, if_pos h]
  · rw [if_neg h, if_neg h]

theorem fix_primary_cases (cp : List String) (r : Role) :
    fix_primary_title cp r = RoleTitle.COUNCILMEMBER ∨
      fix_primary_title cp r = RoleTitle.COUNCILPRESIDENT := by
  unfold fix_primary_title
  cases r.title
  · exact Or.inl rfl
  · dsimp only
    split
    · exact Or.inr rfl
    · exact Or.inl rfl

theorem fix_nonprimary_cases (ch : List String) (r : Role) :
    fix_nonprimary_title ch r = RoleTitle.MEMBER ∨
      fix_nonprimary_title ch r = RoleTitle.VICE_CHAIR ∨
      fix_nonprimary_title ch r = RoleTitle.ALTERNATE ∨
      fix_nonprimary_title ch r = RoleTitle.SUPERVISOR ∨
      fix_nonprimary_title ch r = RoleTitle.CHAIR := by
  unfold fix_nonprimary_title
  cases r.title
  · exact Or.inl rfl
  · dsimp only
    split
    · exact Or.inr (Or.inl rfl)
    · split
      · exact Or.inr (Or.inr (Or.inl rfl))
      · split
        · exact Or.inr (Or.inr (Or.inr (Or.inl rfl)))
        · split
          · exact Or.inr (Or.inr (Or.inr (Or.inr rfl)))
          · exact Or.inl rfl

theorem retitle_idem (pn : List String) (r : Role) :
    retitleRole pn councilPresDefaults chairDefaults
        (retitleRole pn councilPresDefaults chairDefaults r)
      = retitleRole pn councilPresDefaults chairDefaults r := by
  have hprim := is_primary_retitle pn councilPresDefaults chairDefaults r
  have ht := retitle_title pn councilPresDefaults chairDefaults r
  by_cases hp : is_primary_body pn r = true
  · have htitle : (retitleRole pn councilPresDefaults chairDefaults r).title
        = some (fix_primary_title councilPresDefaults r) := by
      rw [ht, if_pos hp]
    have hfix := fix_primary_fixed _ _ (fix_primary_cases councilPresDefaults r) htitle
    rw [retitle_as_update pn councilPresDefaults chairDefaults
      (retitleRole pn councilPresDefaults chairDefaults r)]
    rw [hprim, if_pos hp, hfix]
    exact role_title_eta _ _ htitle
  · have hp2 : is_primary_body pn r = false := by simpa using hp
    have htitle : (retitleRole pn councilPresDefaults chairDefaults r).title
        = some (fix_nonprimary_title chairDefaults r) := by
      rw [ht, if_neg hp]
    have hfix := fix_nonprimary_fixed _ _ (fix_nonprimary_cases chairDefaults r) htitle
    rw [retitle_as_update pn councilPresDefaults chairDefaults
      (retitleRole pn councilPresDefaults chairDefaults r)]
    rw [hprim, if_neg hp, hfix]
    exact role_title_eta _ _ htitle

theorem map_eq_self_of (l : List Role) (f : Role → Role) (h : ∀ r ∈ l, f r = r) :
    l.map f = l := by
  induction l with
  | nil => rfl
  | cons a t ih =>
    rw [List.map_cons, h a (List.mem_cons_self _ _),
      ih (fun r hr => h r (List.mem_cons_of_mem _ hr))]

theorem cmPositions_eq_of (c c2 : Ctx) (hh2 : c2.hpr = c.hpr)
    (hp2 : c2.preSweep = c.preSweep) : c2.cmPositions = c.cmPositions := by
  unfold Ctx.cmPositions
  rw [hh2, hp2]

theorem sortedCM_eq_of (c c2 : Ctx) (hh2 : c2.hpr = c.hpr)
    (hp2 : c2.preSweep = c.preSweep) : c2.sortedCM = c.sortedCM := by
  unfold Ctx.sortedCM
  rw [hp2, cmPositions_eq_of c c2 hh2 hp2]

theorem cmGroups_eq_of (c c2 : Ctx) (hh2 : c2.hpr = c.hpr)
    (hp2 : c2.preSweep = c.preSweep) : c2.cmGroups = c.cmGroups := by
  unfold Ctx.cmGroups
  rw [hp2, sortedCM_eq_of c c2 hh2 hp2]

theorem allPairs_eq_of (c c2 : Ctx) (hh2 : c2.hpr = c.hpr)
    (hp2 : c2.preSweep = c.preSweep) : c2.allPairs = c.allPairs := by
  unfold Ctx.allPairs
  rw [cmGroups_eq_of c c2 hh2 hp2]

theorem idem_core (c c2 : Ctx)
    (hcp : c.council_pres_patterns = councilPresDefaults)
    (hch : c.chair_patterns = chairDefaults)
    (hh : c.hpr = false)
    (hnofire : ∀ pq ∈ c.allPairs, endI c.preSweep pq.1 ≤ startI c.preSweep pq.2)
    (hroles2 : c2.roles = some c.finalRoles)
    (hname2 : c2.person_name = c.person_name)
    (hstatic2 : c2.static_data = c.static_data)
    (hcp2 : c2.council_pres_patterns = c.council_pres_patterns)
    (hch2 : c2.chair_patterns = c.chair_patterns)
    (hnow2 : c2.now = c.now) :
    c2.finalRoles = c.finalRoles := by
  have hout : c.finalRoles = c.preSweep := by
    unfold Ctx.finalRoles
    rw [hpr_false_ext c hh]
    exact sweep_nofire c.preSweep c.allPairs hnofire
  have hh2 : c2.hpr = c.hpr := by
    unfold Ctx.hpr
    rw [hname2, hstatic2]
  have hpn2 : c2.pnames = c.pnames := by
    unfold Ctx.pnames
    rw [hstatic2]
  have hsr2 : c2.staticRoles = c.staticRoles := by
    unfold Ctx.staticRoles
    rw [hname2, hstatic2]
  have hin2 : c2.inputRoles = c.preSweep := by
    unfold Ctx.inputRoles
    rw [hroles2, Option.getD_some]
    exact hout
  have hkeep2 : ∀ r ∈ c.preSweep, c2.keepRole r = true := by
    intro r hr
    unfold Ctx.preSweep at hr
    obtain ⟨r0, hr0, rfl⟩ := List.mem_map.mp hr
    unfold Ctx.keepRole
    rw [hh2, hsr2, hnow2, hpn2, hh, period_retitle]
    have hper := keepRole_period c r0 (keptList_keep c r0 hr0)
    rw [hh] at hper
    rw [hper]
    rfl
  have hkept2 : c2.keptList = c.preSweep := by
    unfold Ctx.keptList
    rw [hin2]
    exact List.filter_eq_self.mpr hkeep2
  have hretid : ∀ r ∈ c.preSweep,
      retitleRole c2.pnames c2.council_pres_patterns c2.chair_patterns r = r := by
    intro r hr
    unfold Ctx.preSweep at hr
    obtain ⟨r0, hr0, rfl⟩ := List.mem_map.mp hr
    rw [hpn2, hcp2, hch2, hcp, hch]
    exact retitle_idem c.pnames r0
  have hpre2 : c2.preSweep = c.preSweep := by
    unfold Ctx.preSweep
    rw [hkept2]
    exact map_eq_self_of _ _ hretid
  have hap2 : c2.allPairs = c.allPairs := allPairs_eq_of c c2 hh2 hpre2
  have hext2 : c2.extendedRoles = c.preSweep := by
    unfold Ctx.extendedRoles
    rw [hpre2, hh2, hh]
    simp
  show c2.allPairs.foldl sweepStep c2.extendedRoles = c.finalRoles
  rw [hap2, hext2, sweep_nofire c.preSweep c.allPairs hnofire, hout]

/-- C5 (amended): sanitize_roles is idempotent under the default pattern
lists, for a person with no declared static roles, whenever the first pass
truncates nothing (its per-body councilmember sequences are already free of
overlaps).  As stated the claim is false: the C5 counterexample shows a
truncated end bound moving before the current moment, so the second pass
drops that role. -/
theorem C5_idempotence_amended (c : Ctx)
    (hcp : c.council_pres_patterns = councilPresDefaults)
    (hch : c.chair_patterns = chairDefaults)
    (hh : c.hpr = false)
    (hnofire : ∀ pq ∈ c.allPairs, endI c.preSweep pq.1 ≤ startI c.preSweep pq.2) :
    sanitize_roles c.person_name
        (some (sanitize_roles c.person_name c.roles c.static_data
          c.council_pres_patterns c.chair_patterns c.now))
        c.static_data c.council_pres_patterns c.chair_patterns c.now
      = sanitize_roles c.person_name c.roles c.static_data c.council_pres_patterns
          c.chair_patterns c.now :=
  idem_core c
    (Ctx.mk c.person_name (some c.finalRoles) c.static_data c.council_pres_patterns
      c.chair_patterns c.now)
    hcp hch hh hnofire rfl rfl rfl rfl rfl rfl

/-- C5 is false as stated: truncation moves the first role end before the
current moment, and the second pass then drops that role entirely. -/
theorem C5_counterexample :
    sanitize_roles ("p")
        (some (sanitize_roles ("p")
          (some [mkRole none (some bodyCC) (some 0) (some 10),
                 mkRole none (some bodyCC) (some 5) (some 10)])
          none councilPresDefaults chairDefaults 6))
        none councilPresDefaults chairDefaults 6
      ≠ sanitize_roles ("p")
          (some [mkRole none (some bodyCC) (some 0) (some 10),
                 mkRole none (some bodyCC) (some 5) (some 10)])
          none councilPresDefaults chairDefaults 6 := by
  decide

/-- Closed instance of the C5 amended theorem at a concrete call. -/
theorem C5_witness :
    (c9Ctx.council_pres_patterns = councilPresDefaults ∧
      c9Ctx.chair_patterns = chairDefaults ∧ c9Ctx.hpr = false ∧
      ∀ pq ∈ c9Ctx.allPairs, endI c9Ctx.preSweep pq.1 ≤ startI c9Ctx.preSweep pq.2) ∧
    sanitize_roles c9Ctx.person_name
        (some (sanitize_roles c9Ctx.person_name c9Ctx.roles c9Ctx.static_data
          c9Ctx.council_pres_patterns c9Ctx.chair_patterns c9Ctx.now))
        c9Ctx.static_data c9Ctx.council_pres_patterns c9Ctx.chair_patterns c9Ctx.now
      = sanitize_roles c9Ctx.person_name c9Ctx.roles c9Ctx.static_data
          c9Ctx.council_pres_patterns c9Ctx.chair_patterns c9Ctx.now :=
  ⟨⟨rfl, rfl, by decide, by decide⟩,
    C5_idempotence_amended c9Ctx rfl rfl (by decide) (by decide)⟩
